import Mathlib

/-!
# ProjectPacker: test verdict engine and archive pack/unpack

A shallow embedding of `src/ProjectPacker/main.go`.

* A Go `string` is modelled as a list of characters (`GoString`).  The string
  operations used by the program (`strings.Split`, `strings.Replace`,
  `strings.HasPrefix`, `filepath.Clean`, `filepath.Join`, ...) only give a
  special meaning to ASCII delimiters, so they are written over code units.
* `strings.ToLower`, `time.Parse` and `time.Now` are library calls; the
  functions that use them take them as arguments.
* The process that `test_project` starts and the timer it races against are
  outside the program; what the `select` statement receives is an input of the
  model (`SelectResult`).
* `path/filepath` is modelled for a Unix target (separator `/`, no volume
  names), and `os.Getwd` is the argument `cwd`.
* Instants are nanoseconds since the Unix epoch; the local zone is an
  argument (its offset east of UTC at a Unix second), and `time.Parse` with
  the layout of `timeFormat` is modelled as `timeParse`.
* The descriptor operations of the caller (`fSetDue`, `createFile`,
  `removeFile`, the add-file branch of `main`) work on the descriptor in
  memory; the answers of the operating system to their calls are an argument
  (`SysEnv`).
* The file system is a state passed through `pack_project` and
  `unpack_project`; a panic is a way to end (`Exit.panicked`) that keeps the
  state reached.  The bytes of a zip archive are not modelled: an archive is
  the list of its entries, what `zip.Writer` is given and what `zip.Reader`
  gives back.
-/

set_option autoImplicit false

namespace ProjectPacker

/-! ## Strings -/

/-- A Go string, as its sequence of code units. -/
abbrev GoString := List Char

/-- The function `strings.HasPrefix`. -/
def HasPrefix (s pre : GoString) : Bool :=
  pre.isPrefixOf s

/-- The function `strings.Index`: position of the first occurrence of `substr`
in `s`, or `none` (Go returns `-1`). -/
def Index : GoString → GoString → Option Nat
  | [], substr => if substr = [] then some 0 else none
  | c :: cs, substr =>
    if HasPrefix (c :: cs) substr then some 0
    else (Index cs substr).map (· + 1)

/-- The loop of `strings.Count` for a non-empty separator: the number of
non-overlapping occurrences, found left to right. -/
def countLoop (sep : GoString) : Nat → GoString → Nat
  | 0, _ => 0
  | fuel + 1, s =>
    match Index s sep with
    | none => 0
    | some m => countLoop sep fuel (s.drop (m + sep.length)) + 1

/-- The function `strings.Count`.  For an empty separator Go returns the number
of runes plus one. -/
def Count (s sep : GoString) : Nat :=
  if sep = [] then s.length + 1 else countLoop sep s.length s

/-- The loop of `strings.genSplit`: `n` more cuts are made, each at the first
occurrence of `sep` in what is left of the string. -/
def splitLoop (sep : GoString) : Nat → GoString → List GoString
  | 0, s => [s]
  | n + 1, s =>
    match Index s sep with
    | none => [s]
    | some m => s.take m :: splitLoop sep n (s.drop (m + sep.length))

/-- The function `strings.Split(s, sep)`.  With an empty separator Go splits
after every rune (`explode`); otherwise the result has `Count(s, sep) + 1`
pieces. -/
def Split (s sep : GoString) : List GoString :=
  if sep = [] then s.map (fun c => [c])
  else splitLoop sep (Count s sep) s

/-- The loop of `strings.Replace` for a non-empty `old`: `n` replacements,
left to right. -/
def replaceLoop (old new : GoString) : Nat → GoString → GoString
  | 0, s => s
  | n + 1, s =>
    match Index s old with
    | none => s
    | some j => s.take j ++ new ++ replaceLoop old new n (s.drop (j + old.length))

/-- The function `strings.Replace(s, old, new, -1)` for a non-empty `old`
(every non-overlapping occurrence is replaced). -/
def ReplaceAll (s old new : GoString) : GoString :=
  if old = new then s else replaceLoop old new (Count s old) s

/-- ASCII lower-casing, the restriction of `strings.ToLower` to ASCII text. -/
def asciiLower (s : GoString) : GoString :=
  s.map Char.toLower

/-! ## The project descriptor -/

/-- The struct `projectConfig`. -/
structure projectConfig where
  ProjectName : GoString
  Author : GoString
  ProjectPath : GoString
  DueDate : GoString
  MainFile : GoString
  TestScript : GoString
  Executable : GoString
  ProjFiles : List GoString
  ExpectedOutPuts : List GoString
  RequiredPasses : Int
  TimeOutAfterSeconds : Int
  CountExecutionAsPass : Bool

/-- The value `lineBreak` that `main` stores before it does anything else:
CRLF on Windows, LF elsewhere. -/
def lineBreak (goosWindows : Bool) : GoString :=
  if goosWindows then ['\r', '\n'] else ['\n']

/-! ## test_project -/

/-- What the `select` statement of `test_project` receives: the timer fired
first, or the goroutine delivered `output{out, err}` first. -/
inductive SelectResult where
  | timerFired
  | received (out : GoString) (err : Option GoString)
  deriving DecidableEq, Repr

/-- Outcome `TimedOut` of the specification. -/
abbrev TimedOut : SelectResult := .timerFired

/-- Outcome `ExecutionError` of the specification: the command was received
with a non-nil error. -/
abbrev ExecutionError (out msg : GoString) : SelectResult := .received out (some msg)

/-- Outcome `Completed` of the specification: the command was received with a
nil error. -/
abbrev Completed (out : GoString) : SelectResult := .received out none

/-- One call of `printPassFail` (the elapsed-time text is left out). -/
inductive Report where
  | onTime (hasPassed : Bool)
  | timedOut
  | execution (hasPassed : Bool)
  | line (hasPassed : Bool) (got expected : GoString)
  deriving DecidableEq, Repr

/-- Tells whether a report comes from the line comparison loop. -/
def Report.isLine : Report → Bool
  | .line _ _ _ => true
  | _ => false

/-- The function `isOnTime`: `eCheck` panics when the due date does not parse.
`parse` stands for `time.Parse(timeFormat, ·)` and `now` for `time.Now()`,
both as instants on one time line. -/
def isOnTime (parse : GoString → Option Int) (now : Int) (dueDate : GoString) :
    Except GoString Bool :=
  match parse dueDate with
  | none => .error "parsing time".toList
  | some dueTime => .ok (decide (now < dueTime))

/-- Lines 96-103 of `test_project`: the deadline report. -/
def deadlineCheck (parse : GoString → Option Int) (now : Int) (dueDate : GoString) :
    Except GoString Report :=
  if dueDate = "not_set".toList ∨ dueDate = "no due date".toList then
    .ok (.onTime true)
  else
    match isOnTime parse now dueDate with
    | .error e => .error e
    | .ok true => .ok (.onTime true)
    | .ok false => .ok (.onTime false)

/-- The `for ind, elm := range outSplit` loop of `test_project` (lines
142-157), started at index `ind` with `currentPasses` passes so far. -/
def compareLoop (lower : GoString → GoString) (expected : List GoString) :
    Nat → List GoString → Nat → List Report → Nat × List Report
  | _, [], currentPasses, log => (currentPasses, log)
  | ind, elm :: rest, currentPasses, log =>
    if elm = [] then (currentPasses, log)
    else if ind ≥ expected.length then (currentPasses, log)
    else if lower (expected.getD ind []) = lower elm then
      compareLoop lower expected (ind + 1) rest (currentPasses + 1)
        (log ++ [.line true elm (expected.getD ind [])])
    else
      compareLoop lower expected (ind + 1) rest currentPasses
        (log ++ [.line false elm (expected.getD ind [])])

/-- What a run of `test_project` that returns leaves behind: the returned
verdict, the final value of the local `currentPasses`, and the reports
printed. -/
structure TestRun where
  verdict : Bool
  currentPasses : Nat
  reports : List Report
  deriving DecidableEq, Repr

/-- The function `test_project`.  `sep` is the global `lineBreak`; `res` is
what the `select` statement receives.  The result is `.error` when the
deadline step panics. -/
def test_project (lower : GoString → GoString) (parse : GoString → Option Int)
    (now : Int) (sep : GoString) (tomlData : projectConfig) (res : SelectResult) :
    Except GoString TestRun :=
  match deadlineCheck parse now tomlData.DueDate with
  | .error e => .error e
  | .ok due =>
    match res with
    | .timerFired =>
      .ok { verdict := false, currentPasses := 0, reports := [due, .timedOut] }
    | .received _ (some _) =>
      .ok { verdict := false, currentPasses := 0, reports := [due, .execution false] }
    | .received out none =>
      let currentPasses := if tomlData.CountExecutionAsPass then 1 else 0
      let outSplit := Split out sep
      let fin := compareLoop lower tomlData.ExpectedOutPuts 0 outSplit currentPasses
        [due, .execution true]
      .ok { verdict := decide (tomlData.RequiredPasses ≤ (fin.1 : Int)),
            currentPasses := fin.1, reports := fin.2 }

/-! ### The comparison as the specification words it -/

/-- Index of the first empty line, or the number of lines when none is
empty. -/
def firstEmptyOrLength : List GoString → Nat
  | [] => 0
  | l :: ls => if l = [] then 0 else firstEmptyOrLength ls + 1

/-- The bound `k` of the lockstep walk: it stops at the first empty output
line, when the output lines run out, or when the expected lines run out. -/
def compareBound (expected outputLines : List GoString) : Nat :=
  min expected.length (firstEmptyOrLength outputLines)

/-- The number of indices below the bound at which the expected line and the
output line agree up to case. -/
def matchingLines (lower : GoString → GoString) (expected outputLines : List GoString) : Nat :=
  ((List.range (compareBound expected outputLines)).filter
    (fun i => decide (lower (expected.getD i []) = lower (outputLines.getD i [])))).length

/-- A descriptor for the examples. -/
def sampleConfig (expected : List GoString) (required : Int) (countExec : Bool) :
    projectConfig :=
  { ProjectName := "dummy_project".toList, Author := "May Draskovics".toList,
    ProjectPath := [], DueDate := "not_set".toList, MainFile := "main.py".toList,
    TestScript := "test.py".toList, Executable := "python".toList,
    ProjFiles := ["project.toml".toList], ExpectedOutPuts := expected,
    RequiredPasses := required, TimeOutAfterSeconds := 2,
    CountExecutionAsPass := countExec }

/-- Tells whether a report is a passed line comparison. -/
def Report.isLinePass : Report → Bool
  | .line true _ _ => true
  | _ => false

/-- The deadline step of `test_project` does not panic: the due date is one of
the two sentinels or it parses. -/
def DeadlineOk (parse : GoString → Option Int) (dueDate : GoString) : Prop :=
  dueDate = "not_set".toList ∨ dueDate = "no due date".toList ∨ (parse dueDate).isSome = true

/-- The passes `test_project` starts the comparison with: one when the
execution itself counts as a pass. -/
def executionPass (tomlData : projectConfig) : Nat :=
  if tomlData.CountExecutionAsPass then 1 else 0

/-- The reports the comparison loop prints for the first `k` output lines,
starting at expected index `ind`. -/
def lineReports (lower : GoString → GoString) (expected outputLines : List GoString)
    (ind k : Nat) : List Report :=
  (List.range k).map (fun j =>
    Report.line (decide (lower (expected.getD (ind + j) []) = lower (outputLines.getD j [])))
      (outputLines.getD j []) (expected.getD (ind + j) []))

/-- The number of matches among the first `k` output lines, starting at
expected index `ind`. -/
def matchesFrom (lower : GoString → GoString) (expected outputLines : List GoString)
    (ind k : Nat) : Nat :=
  ((List.range k).filter
    (fun j => decide (lower (expected.getD (ind + j) []) = lower (outputLines.getD j [])))).length

/-! ## Paths (`path/filepath` on a Unix target, separator `/`) -/

/-- The function `filepath.IsAbs`. -/
def IsAbs (path : GoString) : Bool :=
  HasPrefix path ['/']

/-- The elements of a path: the maximal runs of characters other than `/`.
`cur` is the element being read. -/
def pathElemsAux : GoString → GoString → List GoString
  | [], cur => if cur = [] then [] else [cur]
  | c :: cs, cur =>
    if c = '/' then
      if cur = [] then pathElemsAux cs [] else cur :: pathElemsAux cs []
    else pathElemsAux cs (cur ++ [c])

/-- The non-empty elements of a path, in order. -/
def pathElems (path : GoString) : List GoString :=
  pathElemsAux path []

/-- One step of `filepath.Clean` over the elements of a path.  `stk` holds the
elements kept so far, the last one first.  A `.` element is dropped; a `..`
element removes the last kept element, is dropped at the root of a rooted
path, and is kept at the start of a relative path. -/
def cleanStep (rooted : Bool) (stk : List GoString) (e : GoString) : List GoString :=
  if e = ['.'] then stk
  else if e = ['.', '.'] then
    match stk with
    | [] => if rooted then [] else [['.', '.']]
    | top :: below => if top = ['.', '.'] then e :: top :: below else below
  else e :: stk

/-- The elements `filepath.Clean` keeps, in order. -/
def cleanElems (rooted : Bool) (elems : List GoString) : List GoString :=
  (elems.foldl (cleanStep rooted) []).reverse

/-- Every element preceded by a separator: `["a","b"]` gives `/a/b`. -/
def joinElems (elems : List GoString) : GoString :=
  elems.flatMap (fun e => '/' :: e)

/-- The function `filepath.Clean`: the shortest path equivalent to `path` by
purely lexical processing. -/
def Clean (path : GoString) : GoString :=
  if path = [] then ['.']
  else
    let kept := cleanElems (IsAbs path) (pathElems path)
    if IsAbs path then
      if kept = [] then ['/'] else joinElems kept
    else
      if kept = [] then ['.'] else (joinElems kept).drop 1

/-- The function `filepath.Join` of two elements: the first non-empty element
onward is joined with separators and cleaned. -/
def Join (a b : GoString) : GoString :=
  if a ≠ [] then Clean (a ++ '/' :: b)
  else if b ≠ [] then Clean b
  else []

/-- The part of a path up to and including its last separator. -/
def uptoLastSep : GoString → GoString
  | [] => []
  | c :: cs => if '/' ∈ cs then c :: uptoLastSep cs else if c = '/' then [c] else []

/-- The function `filepath.Dir`. -/
def Dir (path : GoString) : GoString :=
  Clean (uptoLastSep path)

/-- The function `filepath.Abs`, with `cwd` the result of `os.Getwd`. -/
def Abs (cwd path : GoString) : GoString :=
  if IsAbs path then Clean path else Join cwd path

/-- Tells whether a string ends with a separator. -/
def endsWithSep (s : GoString) : Bool :=
  s.getLast? = some '/'

/-! ## The file system

A file system maps the key of a path to what is there.  The key of a path is
the list of its element names, innermost first, so the parent of a key is its
tail and the root is `[]`.  Symbolic links, permissions, length limits and
device errors are not modelled: an operation fails only because something is
missing or is of the wrong kind. -/

/-- File content. -/
abbrev Bytes := List Nat

/-- What a key holds. -/
inductive Node where
  | dir
  | file (content : Bytes)
  deriving DecidableEq, Repr

/-- A key: element names, innermost first. -/
abbrev Key := List GoString

/-- A file system. -/
abbrev FS := Key → Option Node

/-- The file system with `k` holding `n`. -/
def FS.set (fs : FS) (k : Key) (n : Node) : FS :=
  fun q => if q = k then some n else fs q

/-- What `k` holds; the root is a directory. -/
def FS.node (fs : FS) (k : Key) : Option Node :=
  if k = [] then some .dir else fs k

/-- The key the operating system resolves `path` to, from the working
directory `cwd` when the path is relative. -/
def osKey (cwd path : GoString) : Key :=
  (pathElems path).foldl (cleanStep true)
    (if IsAbs path then [] else (pathElems cwd).foldl (cleanStep true) [])

/-- What `path` names: a path with a trailing separator names a directory or
nothing. -/
def osStat (cwd : GoString) (fs : FS) (path : GoString) : Option Node :=
  match fs.node (osKey cwd path) with
  | some (.file c) => if endsWithSep path then none else some (.file c)
  | n => n

/-- The function `os.MkdirAll` on a key: nothing to do when the directory
exists, an error when a file is in the way, otherwise the parent is made
first and then the directory itself.  On an error nothing is created. -/
def mkdirAllKey (fs : FS) : Key → Option FS
  | [] => some fs
  | name :: parent =>
    match fs (name :: parent) with
    | some .dir => some fs
    | some (.file _) => none
    | none =>
      match mkdirAllKey fs parent with
      | none => none
      | some fs1 => some (fs1.set (name :: parent) .dir)

/-- The function `os.MkdirAll`. -/
def MkdirAll (cwd : GoString) (fs : FS) (path : GoString) : Option FS :=
  mkdirAllKey fs (osKey cwd path)

/-- The call `os.OpenFile(path, O_WRONLY|O_CREATE|O_TRUNC, mode)`, also
`os.Create`: the file is created empty in an existing directory, or truncated
when it exists; a directory cannot be opened for writing. -/
def OpenFileTrunc (cwd : GoString) (fs : FS) (path : GoString) : Option FS :=
  match osKey cwd path with
  | [] => none
  | name :: parent =>
    match fs (name :: parent) with
    | some .dir => none
    | some (.file _) =>
      if endsWithSep path then none else some (fs.set (name :: parent) (.file []))
    | none =>
      if endsWithSep path then none
      else if fs.node parent = some .dir then some (fs.set (name :: parent) (.file []))
      else none

/-! ## Archives -/

/-- What reading the body of an archive entry gives: the content, an error
from `f.Open()`, or an error from `io.Copy` after some bytes were written. -/
inductive EntryData where
  | content (bytes : Bytes)
  | openError
  | copyError (written : Bytes)
  deriving DecidableEq, Repr

/-- One `zip.File` of an archive.  `attrDir` tells whether the mode recorded in
the header marks a directory. -/
structure ZipEntry where
  Name : GoString
  attrDir : Bool
  data : EntryData
  deriving DecidableEq, Repr

/-- The test `f.FileInfo().IsDir()`: the recorded mode marks a directory, or
the name ends with a separator. -/
def ZipEntry.IsDir (f : ZipEntry) : Bool :=
  f.attrDir || endsWithSep f.Name

/-- How `pack_project` and `unpack_project` end. -/
inductive Exit where
  | done
  | invalidPath
  | panicked
  deriving DecidableEq, Repr

/-! ## pack_project -/

/-- What `pack_project` leaves behind: the entries written to the archive, in
order, and how it ended. -/
structure PackResult where
  entries : List ZipEntry
  exit : Exit
  deriving DecidableEq, Repr

/-- The `for _, filename := range tomlData.ProjFiles` loop of `pack_project`
(lines 172-184).  `written` holds the entries added so far.  `os.Open` fails
on a missing file; reading a directory fails inside `io.Copy`, after
`zwriter.Create` has added the header; an entry whose name ends with a
separator is a directory entry, to which no byte can be written. -/
def packLoop (cwd : GoString) (fs : FS) : List ZipEntry → List GoString → PackResult
  | written, [] => { entries := written, exit := .done }
  | written, filename :: rest =>
    let fn := Abs cwd filename
    match osStat cwd fs fn with
    | none => { entries := written, exit := .panicked }
    | some .dir =>
      { entries := written ++ [{ Name := filename, attrDir := false, data := .content [] }],
        exit := .panicked }
    | some (.file c) =>
      if endsWithSep filename ∧ c ≠ [] then
        { entries := written ++ [{ Name := filename, attrDir := false, data := .content [] }],
          exit := .panicked }
      else
        packLoop cwd fs (written ++ [{ Name := filename, attrDir := false, data := .content c }])
          rest

/-- The name of the archive `pack_project` creates. -/
def archiveName (tomlData : projectConfig) : GoString :=
  tomlData.ProjectName ++ ".zip".toList

/-- The file system the loop of `pack_project` reads from: `os.Create` has
made the archive file, still empty.  The bytes the zip writer stores in the
archive file while packing are not modelled. -/
def packSnapshot (cwd : GoString) (fs : FS) (tomlData : projectConfig) : Option FS :=
  OpenFileTrunc cwd fs (archiveName tomlData)

/-- The function `pack_project`. -/
def pack_project (cwd : GoString) (fs : FS) (tomlData : projectConfig) : PackResult :=
  match packSnapshot cwd fs tomlData with
  | none => { entries := [], exit := .panicked }
  | some fs1 => packLoop cwd fs1 [] tomlData.ProjFiles

/-! ## unpack_project -/

/-- What `unpack_project` leaves behind: the file system, the lines printed,
and how it ended. -/
structure UnpackResult where
  fs : FS
  stdout : List GoString
  exit : Exit

/-- The destination directory of `unpack_project` (line 197). -/
def destDir (cwd zipFile : GoString) : GoString :=
  Join cwd (ReplaceAll zipFile ".zip".toList [])

/-- The path-traversal guard (line 206). -/
def pathGuard (dest filePath : GoString) : Bool :=
  HasPrefix filePath (Clean dest ++ ['/'])

/-- The body of the `for _, f := range reader.File` loop of `unpack_project`
(lines 203-234) for one entry.  The third component is `none` when the loop
goes on to the next entry. -/
def extractEntry (cwd dest : GoString) (fs : FS) (f : ZipEntry) :
    FS × List GoString × Option Exit :=
  let filePath := Join dest f.Name
  let line := "unzipping file  ".toList ++ filePath
  if !pathGuard dest filePath then
    (fs, [line, "invalid file path".toList], some .invalidPath)
  else if f.IsDir then
    ((MkdirAll cwd fs filePath).getD fs, [line, "creating directory".toList], none)
  else
    match MkdirAll cwd fs (Dir filePath) with
    | none => (fs, [line], some .panicked)
    | some fs1 =>
      match OpenFileTrunc cwd fs1 filePath with
      | none => (fs1, [line], some .panicked)
      | some fs2 =>
        match f.data with
        | .openError => (fs2, [line], some .panicked)
        | .copyError written =>
          (fs2.set (osKey cwd filePath) (.file written), [line], some .panicked)
        | .content bytes =>
          (fs2.set (osKey cwd filePath) (.file bytes), [line], none)

/-- The loop of `unpack_project` over the entries of the archive. -/
def extractLoop (cwd dest : GoString) : FS → List GoString → List ZipEntry → UnpackResult
  | fs, out, [] => { fs := fs, stdout := out, exit := .done }
  | fs, out, f :: rest =>
    match extractEntry cwd dest fs f with
    | (fs1, lines, some e) => { fs := fs1, stdout := out ++ lines, exit := e }
    | (fs1, lines, none) => extractLoop cwd dest fs1 (out ++ lines) rest

/-- The function `unpack_project`.  `reader` is what `zip.OpenReader(zipFile)`
gives: `none` for an error, otherwise the entries of the archive. -/
def unpack_project (cwd : GoString) (fs : FS) (zipFile : GoString)
    (reader : Option (List ZipEntry)) : UnpackResult :=
  match reader with
  | none => { fs := fs, stdout := [], exit := .panicked }
  | some files =>
    let dest := destDir cwd zipFile
    match MkdirAll cwd fs dest with
    | none => { fs := fs, stdout := [], exit := .panicked }
    | some fs1 => extractLoop cwd dest fs1 [] files

/-! ## Predicates and helpers used in the statements -/

/-- A path element: non-empty and without a separator. -/
def GoodName (e : GoString) : Prop :=
  e ≠ [] ∧ '/' ∉ e

/-- A path element that is neither `.` nor `..`. -/
def Plain (e : GoString) : Prop :=
  GoodName e ∧ e ≠ ['.'] ∧ e ≠ ['.', '.']

/-- The key of a rooted path. -/
def rootKey (p : GoString) : Key :=
  (pathElems p).foldl (cleanStep true) []

/-- Tells whether something is a regular file. -/
def isRegular : Option Node → Bool
  | some (.file _) => true
  | _ => false

/-- The bytes of the regular file `path` names (nothing when it names none). -/
def fileBytes (cwd : GoString) (fs : FS) (path : GoString) : Bytes :=
  match osStat cwd fs path with
  | some (.file c) => c
  | _ => []

/-- The archive entry `pack_project` writes for a tracked file. -/
def fileEntry (cwd : GoString) (fs : FS) (path : GoString) : ZipEntry :=
  { Name := path, attrDir := false, data := .content (fileBytes cwd fs path) }

/-- What a tracked path resolves to when `pack_project` opens it, that is,
once `os.Create` has made the archive file. -/
def trackedNode (cwd : GoString) (fs : FS) (tomlData : projectConfig) (path : GoString) :
    Option Node :=
  ((packSnapshot cwd fs tomlData).getD fs).node (osKey cwd path)

/-- A small file system for the examples: directory `/w` with the files
`a.txt` and `b.txt` and the empty directory `sub`. -/
def sampleFS : FS := fun k =>
  if k = ["w".toList] then some .dir
  else if k = ["a.txt".toList, "w".toList] then some (.file [104, 105])
  else if k = ["b.txt".toList, "w".toList] then some (.file [98, 121, 101])
  else if k = ["sub".toList, "w".toList] then some .dir
  else none

/-- A descriptor for the archive examples: project `proj` tracking the given
files. -/
def sampleProject (files : List GoString) : projectConfig :=
  { sampleConfig [] 0 false with ProjectName := "proj".toList, ProjFiles := files }

/-- Key `k` lies strictly inside directory `d`. -/
def StrictlyBelow (d k : Key) : Prop :=
  d <:+ k ∧ k ≠ d

/-- Every key at which two file systems differ lies strictly inside `d`. -/
def OnlyBelow (d : Key) (fs fs1 : FS) : Prop :=
  ∀ q, fs1 q ≠ fs q → StrictlyBelow d q

/-- The two lines `unpack_project` prints for an entry it rejects. -/
def invalidPathLines (dest : GoString) (f : ZipEntry) : List GoString :=
  ["unzipping file  ".toList ++ Join dest f.Name, "invalid file path".toList]

/-- The key of a path relative to the directory it is joined to: its elements
cleaned as a relative path, innermost first. -/
def relKey (name : GoString) : Key :=
  (pathElems name).foldl (cleanStep false) []

/-- The path stays inside the directory it is joined to: cleaned, it is not
empty and does not climb with `..`. -/
def Local (name : GoString) : Prop :=
  relKey name ≠ [] ∧ ['.', '.'] ∉ relKey name

instance (name : GoString) : Decidable (Local name) := by
  unfold Local; infer_instance

/-- The key at which `unpack_project` writes the entry named `p`: the entry's
path under the destination directory, resolved by the operating system. -/
def landingKey (cwd dest p : GoString) : Key :=
  osKey cwd (Join dest p)

/-- Nothing stands in the way of a file at key `k` under the directory `d`:
`k` is not a directory, and no regular file sits on the way from `d` down to
`k`.  A regular file already at `k` is no obstacle, it is overwritten. -/
def ClearWay (fs : FS) (d k : Key) : Prop :=
  fs k ≠ some .dir ∧ ∀ a ∈ k.tails, d <:+ a → a ≠ d → a ≠ k → isRegular (fs a) = false

instance (fs : FS) (d k : Key) : Decidable (ClearWay fs d k) := by
  unfold ClearWay; infer_instance

/-- Tracked paths do not get in each other's way: when one lands on the place
of another or above it, both land on the same place and hold the same bytes. -/
def NoClash (keyOf : GoString → Key) (bytes : GoString → Bytes) (files : List GoString) : Prop :=
  ∀ p ∈ files, ∀ q ∈ files, keyOf q <:+ keyOf p → keyOf q = keyOf p ∧ bytes q = bytes p

instance (keyOf : GoString → Key) (bytes : GoString → Bytes) (files : List GoString) :
    Decidable (NoClash keyOf bytes files) := by
  unfold NoClash; infer_instance

/-- How the file system `fs` of a running extraction relates to the one it
started from, `fs0`: a key is as it was, or holds the bytes of a tracked file
that lands there, or is a directory on the way to the place of a tracked
file. -/
def Unpacking (files : List GoString) (bytes : GoString → Bytes) (keyOf : GoString → Key)
    (fs0 fs : FS) : Prop :=
  ∀ a, fs a = fs0 a ∨ (∃ q ∈ files, keyOf q = a ∧ fs a = some (.file (bytes q))) ∨
    (fs a = some .dir ∧ ∃ q ∈ files, ∃ r : Key, r ≠ [] ∧ keyOf q = r ++ a)

/-- The key of an entry's path under a rooted destination. -/
def destKey (dest p : GoString) : Key :=
  rootKey (Join dest p)

/-- A file system for the round-trip example: `/w/a.txt` to pack, a
destination `/w/proj` that already holds an older `a.txt`, and a file
`/proj/c.txt` outside the working directory `/w`. -/
def sampleTree : FS := fun k =>
  if k = ["w".toList] then some .dir
  else if k = ["a.txt".toList, "w".toList] then some (.file [104, 105])
  else if k = ["proj".toList, "w".toList] then some .dir
  else if k = ["a.txt".toList, "proj".toList, "w".toList] then some (.file [111, 108, 100])
  else if k = ["proj".toList] then some .dir
  else if k = ["c.txt".toList, "proj".toList] then some (.file [99])
  else none

/-- The archive entry of a tracked file with the given bytes. -/
def entryOf (bytes : GoString → Bytes) (p : GoString) : ZipEntry :=
  { Name := p, attrDir := false, data := .content (bytes p) }

/-! ## Time (package `time`)

An instant is a count of nanoseconds since the Unix epoch.  Calendar
arithmetic is the proleptic Gregorian calendar that `time.Date` and
`Time.Format` use. -/

/-- Nanoseconds in a second. -/
def nsPerSec : Int := 1000000000

/-- Tells whether a year is a leap year. -/
def isLeap (y : Int) : Bool :=
  decide (y % 4 = 0 ∧ (y % 100 ≠ 0 ∨ y % 400 = 0))

/-- The function `daysIn` of package `time`: the number of days of a month. -/
def daysIn (m y : Int) : Int :=
  if m = 2 then (if isLeap y then 29 else 28)
  else if m = 4 ∨ m = 6 ∨ m = 9 ∨ m = 11 then 30
  else 31

/-- Days from 1970-01-01 to the given civil date.  The day may lie outside
the month: `time.Date` normalises such a date by counting on from the first
of the month, which is what the formula does. -/
def daysFromCivil (y m d : Int) : Int :=
  let y1 := if m ≤ 2 then y - 1 else y
  let era := y1 / 400
  let yoe := y1 - era * 400
  let mp := (m + 9) % 12
  let doy := (153 * mp + 2) / 5 + d - 1
  let doe := yoe * 365 + yoe / 4 - yoe / 100 + doy
  era * 146097 + doe - 719468

/-- The civil date (year, month, day) of a day count from 1970-01-01. -/
def civilFromDays (z : Int) : Int × Int × Int :=
  let z1 := z + 719468
  let era := z1 / 146097
  let doe := z1 - era * 146097
  let yoe := (doe - doe / 1460 + doe / 36524 - doe / 146096) / 365
  let doy := doe - (365 * yoe + yoe / 4 - yoe / 100)
  let mp := (5 * doy + 2) / 153
  let d := doy - (153 * mp + 2) / 5 + 1
  let m := if mp < 10 then mp + 3 else mp - 9
  let y := yoe + era * 400
  (if m ≤ 2 then y + 1 else y, m, d)

/-- The call `time.Date(y, m, d, h, mi, s, 0, time.UTC)` for a month from 1 to
12, as an instant. -/
def dateUTC (y m d h mi s : Int) : Int :=
  (daysFromCivil y m d * 86400 + h * 3600 + mi * 60 + s) * nsPerSec

/-- The Unix second an instant falls in. -/
def unixSec (t : Int) : Int :=
  t / nsPerSec

/-- A civil time: year, month, day, hour, minute, second. -/
structure Civil where
  year : Int
  month : Int
  day : Int
  hour : Int
  minute : Int
  second : Int
  deriving DecidableEq, Repr

/-- The civil time of an instant in a zone.  `loc` gives the offset of the
zone east of UTC, in seconds, at a Unix second. -/
def civilIn (loc : Int → Int) (t : Int) : Civil :=
  let s := unixSec t + loc (unixSec t)
  let ymd := civilFromDays (s / 86400)
  let r := s % 86400
  { year := ymd.1, month := ymd.2.1, day := ymd.2.2,
    hour := r / 3600, minute := r % 3600 / 60, second := r % 60 }

/-- The decimal digit `k`. -/
def digitChar (k : Nat) : Char :=
  Char.ofNat (48 + k)

/-- Two decimal digits, zero padded. -/
def pad2 (n : Nat) : GoString :=
  [digitChar (n / 10 % 10), digitChar (n % 10)]

/-- At least four decimal digits, zero padded. -/
def pad4 (n : Nat) : GoString :=
  if n < 10000 then
    [digitChar (n / 1000), digitChar (n / 100 % 10), digitChar (n / 10 % 10), digitChar (n % 10)]
  else Nat.toDigits 10 n

/-- The year as `Time.Format` writes it for `2006`: at least four digits, with
a minus sign for a negative year. -/
def formatYear (y : Int) : GoString :=
  if y < 0 then '-' :: pad4 y.natAbs else pad4 y.toNat

/-- A civil time written in the layout `timeFormat`,
`2006-01-02 15:04:05`. -/
def formatCivil (c : Civil) : GoString :=
  formatYear c.year ++ '-' :: pad2 c.month.toNat ++ '-' :: pad2 c.day.toNat ++
    ' ' :: pad2 c.hour.toNat ++ ':' :: pad2 c.minute.toNat ++ ':' :: pad2 c.second.toNat

/-- The call `t.In(loc).Format(timeFormat)`. -/
def formatTime (loc : Int → Int) (t : Int) : GoString :=
  formatCivil (civilIn loc t)

/-- The value of a decimal digit. -/
def digitVal (c : Char) : Nat :=
  c.toNat - 48

/-- The function `getnum` of package `time`: one or two leading digits; two
are required when `fixed` is set. -/
def getnum (s : GoString) (fixed : Bool) : Option (Nat × GoString) :=
  match s with
  | [] => none
  | [c0] =>
    if !c0.isDigit then none
    else if fixed then none
    else some (digitVal c0, [])
  | c0 :: c1 :: rest =>
    if !c0.isDigit then none
    else if !c1.isDigit then
      if fixed then none else some (digitVal c0, c1 :: rest)
    else some (digitVal c0 * 10 + digitVal c1, rest)

/-- The year field `2006`: exactly four digits are read. -/
def getYear (s : GoString) : Option (Nat × GoString) :=
  match s with
  | c0 :: c1 :: c2 :: c3 :: rest =>
    if c0.isDigit ∧ c1.isDigit ∧ c2.isDigit ∧ c3.isDigit then
      some (((digitVal c0 * 10 + digitVal c1) * 10 + digitVal c2) * 10 + digitVal c3, rest)
    else none
  | _ => none

/-- The function `skip` of package `time` for a one-character literal other
than a space. -/
def skipChar (c : Char) (s : GoString) : Option GoString :=
  match s with
  | [] => none
  | x :: rest => if x = c then some rest else none

/-- The function `skip` of package `time` for the literal space of the layout:
the value must not go on with another character, and all the spaces it starts
with are dropped. -/
def skipSpaces (s : GoString) : Option GoString :=
  match s with
  | [] => some []
  | x :: rest => if x ≠ ' ' then none else some ((x :: rest).dropWhile (· = ' '))

/-- The number a list of decimal digits denotes. -/
def digitsVal (ds : GoString) : Nat :=
  ds.foldl (fun acc c => acc * 10 + digitVal c) 0

/-- A fractional second in the value although the layout has none: after the
seconds, a period or comma followed by digits is read as nanoseconds (the
first nine digits count). -/
def getFraction (s : GoString) : Nat × GoString :=
  match s with
  | p :: c :: rest =>
    if (p = '.' ∨ p = ',') ∧ c.isDigit then
      let ds := (c :: rest).takeWhile Char.isDigit
      let used := ds.take 9
      (digitsVal used * 10 ^ (9 - used.length), (c :: rest).dropWhile Char.isDigit)
    else (0, s)
  | _ => (0, s)

/-- The call `time.Parse(timeFormat, value)` with the layout
`2006-01-02 15:04:05`: the instant, read in UTC, or `none` for an error. -/
def timeParse (value : GoString) : Option Int :=
  match getYear value with
  | none => none
  | some (year, v1) =>
  match skipChar '-' v1 with
  | none => none
  | some v2 =>
  match getnum v2 true with
  | none => none
  | some (month, v3) =>
  if month = 0 ∨ 12 < month then none else
  match skipChar '-' v3 with
  | none => none
  | some v4 =>
  match getnum v4 true with
  | none => none
  | some (day, v5) =>
  match skipSpaces v5 with
  | none => none
  | some v6 =>
  match getnum v6 false with
  | none => none
  | some (hour, v7) =>
  if 24 ≤ hour then none else
  match skipChar ':' v7 with
  | none => none
  | some v8 =>
  match getnum v8 true with
  | none => none
  | some (minute, v9) =>
  if 60 ≤ minute then none else
  match skipChar ':' v9 with
  | none => none
  | some v10 =>
  match getnum v10 true with
  | none => none
  | some (second, v11) =>
  if 60 ≤ second then none else
  match getFraction v11 with
  | (nsec, v12) =>
  if v12 ≠ [] then none
  else if day < 1 ∨ daysIn month year < day then none
  else some (dateUTC year month day hour minute second + nsec)

/-- The zone UTC. -/
def utc : Int → Int := fun _ => 0

/-- A zone with a fixed offset east of UTC, in seconds. -/
def fixedZone (offset : Int) : Int → Int := fun _ => offset

/-! ## The descriptor operations of the caller -/

/-- The answers of the operating system to the calls the descriptor
operations make, and the result of `os.Getwd`.  Each answer tells whether the
call on that path succeeds. -/
structure SysEnv where
  cwd : GoString
  writeTomlOk : GoString → Bool
  statOk : GoString → Bool
  mkdirAllOk : GoString → Bool
  createOk : GoString → Bool
  removeOk : GoString → Bool

/-- How a descriptor operation ends: the descriptor as it is left in memory,
and whether the operation panicked. -/
structure Outcome where
  tomlData : projectConfig
  panicked : Bool

/-- The struct `tomlTemplate`. -/
structure tomlTemplate where
  Name : GoString
  Language : GoString
  Path : GoString
  deriving DecidableEq, Repr

/-- The struct `app_config`, of which the descriptor operations use the map
`Templates`. -/
structure app_config where
  Templates : List (GoString × tomlTemplate)

/-- The function `templateExists`. -/
def templateExists (conf : app_config) (name : GoString) : Bool :=
  (conf.Templates.lookup name).isSome

/-- The function `getTemplate`. -/
def getTemplate (conf : app_config) (name : GoString) : Option tomlTemplate :=
  conf.Templates.lookup name

/-- The value `int64` wraps an integer to. -/
def wrap64 (x : Int) : Int :=
  (x + 9223372036854775808) % 18446744073709551616 - 9223372036854775808

/-- The function `fSetDue`.  `loc` is the local zone and `now1`, `now2`,
`now3` are the three readings of `time.Now()` of line 331, in order. -/
def fSetDue (env : SysEnv) (loc : Int → Int) (now1 now2 now3 : Int)
    (tomlData : projectConfig) (tomlFile : GoString) (setDue : Int) : Outcome :=
  if tomlData.DueDate ≠ "not_set".toList then
    { tomlData := tomlData, panicked := true }
  else
    let dueDate :=
      if setDue = -1 then "no due date".toList
      else
        let t := dateUTC (civilIn loc now1).year (civilIn loc now2).month
          ((civilIn loc now3).day + 1) 3 59 59
        let t1 := t + wrap64 (setDue * 24 * (3600 * nsPerSec))
        formatTime loc t1
    let updated := { tomlData with DueDate := dueDate }
    { tomlData := updated, panicked := !env.writeTomlOk tomlFile }

/-- The function `addFileToProject`. -/
def addFileToProject (env : SysEnv) (tomlData : projectConfig) (tomlFile fileName : GoString) :
    Outcome :=
  { tomlData := { tomlData with ProjFiles := tomlData.ProjFiles ++ [fileName] },
    panicked := !env.writeTomlOk tomlFile }

/-- The path without its trailing separators. -/
def stripTrailingSeps (path : GoString) : GoString :=
  (path.reverse.dropWhile (· = '/')).reverse

/-- What follows the last separator of a path. -/
def lastElem (path : GoString) : GoString :=
  (path.reverse.takeWhile (· ≠ '/')).reverse

/-- The function `filepath.Base`. -/
def Base (path : GoString) : GoString :=
  if path = [] then ['.']
  else
    let e := lastElem (stripTrailingSeps path)
    if e = [] then ['/'] else e

/-- The function `indexOf` of `ProjectPacker/main.go`: the first index whose
element is `lookFor` or has `lookFor` as its base name; `none` stands for
`-1`. -/
def indexOf : List GoString → GoString → Option Nat
  | [], _ => none
  | elm :: rest, lookFor =>
    if elm = lookFor ∨ Base elm = lookFor then some 0
    else (indexOf rest lookFor).map (· + 1)

/-- The function `indexOf` of the earlier `main.go`: the first index whose
element is `lookFor`. -/
def indexOfExact : List GoString → GoString → Option Nat
  | [], _ => none
  | elm :: rest, lookFor =>
    if elm = lookFor then some 0
    else (indexOfExact rest lookFor).map (· + 1)

/-- Lines 259-260 of `removeFile`: the last element is stored at index `i`
and the list loses its last element. -/
def swapRemove (files : List GoString) (i : Nat) : List GoString :=
  (files.set i (files.getLastD [])).dropLast

/-- The function `removeFile`, with the `indexOf` it calls as an argument. -/
def removeFileWith (index : List GoString → GoString → Option Nat) (env : SysEnv)
    (tomlData : projectConfig) (tomlFile fileName : GoString) (deleteFile : Bool) : Outcome :=
  match index tomlData.ProjFiles fileName with
  | none => { tomlData := tomlData, panicked := true }
  | some i =>
    let updated := { tomlData with ProjFiles := swapRemove tomlData.ProjFiles i }
    if !env.writeTomlOk tomlFile then { tomlData := updated, panicked := true }
    else if deleteFile then { tomlData := updated, panicked := !env.removeOk fileName }
    else { tomlData := updated, panicked := false }

/-- The function `removeFile` of `ProjectPacker/main.go`. -/
def removeFile (env : SysEnv) (tomlData : projectConfig) (tomlFile fileName : GoString)
    (deleteFile : Bool) : Outcome :=
  removeFileWith indexOf env tomlData tomlFile fileName deleteFile

/-- The function `removeFile` of the earlier `main.go`. -/
def removeFileExact (env : SysEnv) (tomlData : projectConfig) (tomlFile fileName : GoString)
    (deleteFile : Bool) : Outcome :=
  removeFileWith indexOfExact env tomlData tomlFile fileName deleteFile

/-- The function `strings.Contains`. -/
def Contains (s substr : GoString) : Bool :=
  (Index s substr).isSome

/-- Lines 292-302 of `createFile`: a file that is not tracked yet is created
and added. -/
def createPlain (env : SysEnv) (tomlData : projectConfig) (tomlFile newFile : GoString) :
    Outcome :=
  if newFile ∈ tomlData.ProjFiles then { tomlData := tomlData, panicked := false }
  else if !env.mkdirAllOk (Dir newFile) then { tomlData := tomlData, panicked := true }
  else if !env.createOk newFile then { tomlData := tomlData, panicked := true }
  else addFileToProject env tomlData tomlFile newFile

/-- Lines 272-291 of `createFile`: for an argument that contains `template:`
the template is copied into the working directory and the copy is added.
The result of `copy` is not looked at by the code. -/
def createFromTemplate (env : SysEnv) (conf : app_config) (tomlData : projectConfig)
    (tomlFile newFile : GoString) : Outcome :=
  let tempName := (Split newFile [':']).getD 1 []
  if !templateExists conf tempName then { tomlData := tomlData, panicked := true }
  else
    match getTemplate conf tempName with
    | none => { tomlData := tomlData, panicked := true }
    | some temp =>
      if !env.statOk temp.Path then { tomlData := tomlData, panicked := true }
      else
        let templatedFile := Join env.cwd (Base temp.Path)
        addFileToProject env tomlData tomlFile (ReplaceAll templatedFile ['\\'] ['/'])

/-- The function `createFile` of `ProjectPacker/main.go`. -/
def createFile (env : SysEnv) (conf : app_config) (tomlData : projectConfig)
    (tomlFile newFile : GoString) : Outcome :=
  if Contains newFile "template:".toList then
    match createFromTemplate env conf tomlData tomlFile newFile with
    | { tomlData := td, panicked := true } => { tomlData := td, panicked := true }
    | { tomlData := td, panicked := false } => createPlain env td tomlFile newFile
  else createPlain env tomlData tomlFile newFile

/-- The function `createFile` of the earlier `main.go`, which has no
templates. -/
def createFileExact (env : SysEnv) (tomlData : projectConfig) (tomlFile newFile : GoString) :
    Outcome :=
  createPlain env tomlData tomlFile newFile

/-- The add-file branch of `main` (lines 478-485). -/
def mainAddFile (env : SysEnv) (tomlData : projectConfig) (tomlFile addFile : GoString) :
    Outcome :=
  if addFile ≠ [] then
    if addFile ∈ tomlData.ProjFiles then { tomlData := tomlData, panicked := false }
    else addFileToProject env tomlData tomlFile addFile
  else { tomlData := tomlData, panicked := false }

/-- An operating system on which every call of the descriptor operations
succeeds, with the working directory `/w`. -/
def sampleEnv : SysEnv :=
  { cwd := "/w".toList, writeTomlOk := fun _ => true, statOk := fun _ => true,
    mkdirAllOk := fun _ => true, createOk := fun _ => true, removeOk := fun _ => true }

/-- An application configuration with the template `py`, stored as
`/home/may/.config/.project_packer/main.py`. -/
def sampleConf : app_config :=
  { Templates := [("py".toList,
      { Name := "py".toList, Language := "python".toList,
        Path := "/home/may/.config/.project_packer/main.py".toList })] }

/-- Two descriptors that differ at most in `DueDate`. -/
def SameButDueDate (a b : projectConfig) : Prop :=
  b = { a with DueDate := b.DueDate }

/-- What `test_project` does after the deadline step (lines 105-160): the
verdict, the passes and the reports printed from there on. -/
def afterDeadline (lower : GoString → GoString) (sep : GoString) (tomlData : projectConfig) :
    SelectResult → TestRun
  | .timerFired => { verdict := false, currentPasses := 0, reports := [.timedOut] }
  | .received _ (some _) =>
    { verdict := false, currentPasses := 0, reports := [.execution false] }
  | .received out none =>
    let fin := compareLoop lower tomlData.ExpectedOutPuts 0 (Split out sep)
      (executionPass tomlData) [.execution true]
    { verdict := decide (tomlData.RequiredPasses ≤ (fin.1 : Int)), currentPasses := fin.1,
      reports := fin.2 }

/-- A civil time that the layout `2006-01-02 15:04:05` can write with a
four-digit year: a real date and a time of day. -/
def ValidCivil (c : Civil) : Prop :=
  0 ≤ c.year ∧ c.year < 10000 ∧ 1 ≤ c.month ∧ c.month ≤ 12 ∧
  1 ≤ c.day ∧ c.day ≤ daysIn c.month c.year ∧
  0 ≤ c.hour ∧ c.hour < 24 ∧ 0 ≤ c.minute ∧ c.minute < 60 ∧ 0 ≤ c.second ∧ c.second < 60

instance (c : Civil) : Decidable (ValidCivil c) := by
  unfold ValidCivil; infer_instance

/-- The instant a civil time denotes when it is read in UTC. -/
def civilInstant (c : Civil) : Int :=
  dateUTC c.year c.month c.day c.hour c.minute c.second

/-- The end of the local calendar day that lies `n` days after the day of
`now`, as an instant: 23:59:59 local time on that day.  `loc` is the local
zone. -/
def endOfLocalDay (loc : Int → Int) (now n : Int) : Int :=
  dateUTC (civilIn loc now).year (civilIn loc now).month ((civilIn loc now).day + n) 23 59 59
    - loc (unixSec now) * nsPerSec

/-- An instant for the examples: 2024-01-15 17:00:00 UTC. -/
def sampleNow : Int :=
  dateUTC 2024 1 15 17 0 0

/-! ## Theorems: test_project -/

theorem matchesFrom_zero (lower : GoString → GoString) (expected lines : List GoString)
    (ind : Nat) : matchesFrom lower expected lines ind 0 = 0 := rfl

theorem lineReports_zero (lower : GoString → GoString) (expected lines : List GoString)
    (ind : Nat) : lineReports lower expected lines ind 0 = [] := rfl

theorem matchesFrom_succ (lower : GoString → GoString) (expected rest : List GoString)
    (elm : GoString) (ind k : Nat) :
    matchesFrom lower expected (elm :: rest) ind (k + 1) =
      (if lower (expected.getD ind []) = lower elm then 1 else 0) +
        matchesFrom lower expected rest (ind + 1) k := by
  unfold matchesFrom
  rw [List.range_succ_eq_map, List.filter_cons, List.filter_map]
  have hf : ((fun j => decide (lower (expected.getD (ind + j) []) =
        lower ((elm :: rest).getD j []))) ∘ Nat.succ) =
      (fun j => decide (lower (expected.getD (ind + 1 + j) []) = lower (rest.getD j []))) := by
    funext j
    show decide (lower (expected.getD (ind + (j + 1)) []) = lower (rest.getD j [])) = _
    rw [show ind + (j + 1) = ind + 1 + j by omega]
  rw [hf]
  have h0 : lower (expected.getD (ind + 0) []) = lower ((elm :: rest).getD 0 []) ↔
      lower (expected.getD ind []) = lower elm := Iff.rfl
  by_cases hm : lower (expected.getD ind []) = lower elm
  · rw [if_pos (decide_eq_true (h0.mpr hm)), if_pos hm, List.length_cons, List.length_map]
    omega
  · rw [if_neg (by simpa using fun h => hm (h0.mp h)), if_neg hm, List.length_map]
    omega

theorem lineReports_succ (lower : GoString → GoString) (expected rest : List GoString)
    (elm : GoString) (ind k : Nat) :
    lineReports lower expected (elm :: rest) ind (k + 1) =
      Report.line (decide (lower (expected.getD ind []) = lower elm)) elm (expected.getD ind [])
        :: lineReports lower expected rest (ind + 1) k := by
  unfold lineReports
  rw [List.range_succ_eq_map, List.map_cons, List.map_map]
  congr 1
  apply List.map_congr_left
  intro j _
  show Report.line (decide (lower (expected.getD (ind + (j + 1)) []) = lower (rest.getD j [])))
    (rest.getD j []) (expected.getD (ind + (j + 1)) []) = _
  rw [show ind + (j + 1) = ind + 1 + j by omega]

theorem compareLoop_eq (lower : GoString → GoString) (expected : List GoString) :
    ∀ (lines : List GoString) (ind p : Nat) (log : List Report),
      compareLoop lower expected ind lines p log =
        (p + matchesFrom lower expected lines ind
              (min (expected.length - ind) (firstEmptyOrLength lines)),
         log ++ lineReports lower expected lines ind
              (min (expected.length - ind) (firstEmptyOrLength lines))) := by
  intro lines
  induction lines with
  | nil =>
    intro ind p log
    simp [compareLoop, firstEmptyOrLength, lineReports_zero, matchesFrom_zero]
  | cons elm rest ih =>
    intro ind p log
    unfold compareLoop
    by_cases he : elm = []
    · simp [he, firstEmptyOrLength, lineReports_zero, matchesFrom_zero]
    · rw [if_neg he]
      by_cases hi : ind ≥ expected.length
      · rw [if_pos hi]
        have : expected.length - ind = 0 := by omega
        simp [this, lineReports_zero, matchesFrom_zero]
      · rw [if_neg hi]
        have hk : min (expected.length - ind) (firstEmptyOrLength (elm :: rest)) =
            min (expected.length - (ind + 1)) (firstEmptyOrLength rest) + 1 := by
          simp only [firstEmptyOrLength, if_neg he]
          omega
        rw [hk, matchesFrom_succ, lineReports_succ]
        by_cases hm : lower (expected.getD ind []) = lower elm
        · rw [if_pos hm, ih]
          simp only [hm, if_true, decide_True, List.append_assoc, List.singleton_append]
          congr 1
          omega
        · rw [if_neg hm, ih]
          simp only [hm, if_false, decide_False, List.append_assoc, List.singleton_append,
            Nat.zero_add]

theorem deadlineCheck_ok (parse : GoString → Option Int) (now : Int) (dueDate : GoString)
    (h : DeadlineOk parse dueDate) :
    ∃ r, deadlineCheck parse now dueDate = .ok r ∧ r.isLine = false := by
  unfold deadlineCheck
  by_cases hs : dueDate = "not_set".toList ∨ dueDate = "no due date".toList
  · rw [if_pos hs]; exact ⟨_, rfl, rfl⟩
  · rw [if_neg hs]
    have hp : (parse dueDate).isSome = true := by
      rcases h with h | h | h
      · exact absurd (Or.inl h) hs
      · exact absurd (Or.inr h) hs
      · exact h
    obtain ⟨t, ht⟩ := Option.isSome_iff_exists.mp hp
    simp only [isOnTime, ht]
    by_cases hlt : now < t
    · simp [hlt, Report.isLine]
    · simp [hlt, Report.isLine]

theorem matchesFrom_zero_ind (lower : GoString → GoString) (expected lines : List GoString) :
    matchesFrom lower expected lines 0 (min (expected.length - 0) (firstEmptyOrLength lines)) =
      matchingLines lower expected lines := by
  unfold matchesFrom matchingLines compareBound
  simp only [Nat.zero_add, Nat.sub_zero]

theorem lineReports_filter_isLine (lower : GoString → GoString)
    (expected lines : List GoString) (ind k : Nat) :
    (lineReports lower expected lines ind k).filter Report.isLine =
      lineReports lower expected lines ind k := by
  apply List.filter_eq_self.mpr
  intro r hr
  unfold lineReports at hr
  obtain ⟨j, _, rfl⟩ := List.mem_map.mp hr
  rfl

theorem lineReports_passes (lower : GoString → GoString)
    (expected lines : List GoString) (ind k : Nat) :
    ((lineReports lower expected lines ind k).filter Report.isLinePass).length =
      matchesFrom lower expected lines ind k := by
  unfold lineReports matchesFrom
  rw [List.filter_map, List.length_map]
  congr 2
  funext j
  simp only [Function.comp]
  by_cases hm : lower (expected.getD (ind + j) []) = lower (lines.getD j [])
  · simp only [hm, decide_True, Report.isLinePass]
  · simp only [hm, decide_False, Report.isLinePass]

/-- What `test_project` returns on a `Completed` outcome, in closed form. -/
theorem test_project_completed (lower : GoString → GoString) (parse : GoString → Option Int)
    (now : Int) (sep : GoString) (tomlData : projectConfig) (out : GoString)
    (hdue : DeadlineOk parse tomlData.DueDate) :
    ∃ due, deadlineCheck parse now tomlData.DueDate = .ok due ∧ due.isLine = false ∧
      test_project lower parse now sep tomlData (Completed out) =
        .ok { verdict := decide (tomlData.RequiredPasses ≤
                ((executionPass tomlData +
                  matchingLines lower tomlData.ExpectedOutPuts (Split out sep) : Nat) : Int)),
              currentPasses := executionPass tomlData +
                  matchingLines lower tomlData.ExpectedOutPuts (Split out sep),
              reports := [due, .execution true] ++
                lineReports lower tomlData.ExpectedOutPuts (Split out sep) 0
                  (compareBound tomlData.ExpectedOutPuts (Split out sep)) } := by
  obtain ⟨due, hd, hl⟩ := deadlineCheck_ok parse now tomlData.DueDate hdue
  refine ⟨due, hd, hl, ?_⟩
  unfold test_project
  simp only [hd, Completed]
  rw [compareLoop_eq, matchesFrom_zero_ind]
  simp only [executionPass, compareBound, Nat.sub_zero]

/-- C1. On a `Completed` outcome (the command was received with a nil error
before the timer fired) and a deadline step that does not panic,
`test_project` returns, and it returns `true` exactly when `RequiredPasses` is
at most the accumulated pass count: the optional execution pass plus the
number of matching compared lines. -/
theorem test_project_verdict_iff (lower : GoString → GoString)
    (parse : GoString → Option Int) (now : Int) (sep : GoString)
    (tomlData : projectConfig) (out : GoString)
    (hdue : DeadlineOk parse tomlData.DueDate) :
    ∃ run, test_project lower parse now sep tomlData (Completed out) = .ok run ∧
      (run.verdict = true ↔
        tomlData.RequiredPasses ≤
          ((executionPass tomlData +
            matchingLines lower tomlData.ExpectedOutPuts (Split out sep) : Nat) : Int)) := by
  obtain ⟨due, _, _, h⟩ := test_project_completed lower parse now sep tomlData out hdue
  exact ⟨_, h, by simp⟩

/-- Witness for C1: expected `["hello","world"]`, output lines
`["hello","world"]`, no execution pass: the verdict is `true` for
`RequiredPasses = 2` and `false` for `RequiredPasses = 3`. -/
theorem test_project_verdict_iff_witness :
    (∃ run, test_project asciiLower (fun _ => none) 0 (lineBreak false)
        (sampleConfig ["hello".toList, "world".toList] 2 false)
        (Completed "hello\nworld".toList) = .ok run ∧ run.verdict = true) ∧
    (∃ run, test_project asciiLower (fun _ => none) 0 (lineBreak false)
        (sampleConfig ["hello".toList, "world".toList] 3 false)
        (Completed "hello\nworld".toList) = .ok run ∧ run.verdict = false) := by
  constructor
  · obtain ⟨run, h, hv⟩ := test_project_verdict_iff asciiLower (fun _ => none) 0
      (lineBreak false) (sampleConfig ["hello".toList, "world".toList] 2 false)
      "hello\nworld".toList (Or.inl rfl)
    exact ⟨run, h, hv.mpr (by decide)⟩
  · obtain ⟨run, h, hv⟩ := test_project_verdict_iff asciiLower (fun _ => none) 0
      (lineBreak false) (sampleConfig ["hello".toList, "world".toList] 3 false)
      "hello\nworld".toList (Or.inl rfl)
    refine ⟨run, h, ?_⟩
    cases hrv : run.verdict
    · rfl
    · exact absurd (hv.mp hrv) (by decide)

/-- C2. On a `Completed` outcome, the line passes `test_project` counts (the
final `currentPasses` less the execution pass, and equally the number of
passed line reports) are the indices `i < k` with
`lower expected[i] = lower outputLines[i]`, where `outputLines` is the output
split on the line separator and `k` is the smaller of the number of expected
lines and the index of the first empty output line (the number of output lines
when none is empty). -/
theorem test_project_line_passes (lower : GoString → GoString)
    (parse : GoString → Option Int) (now : Int) (sep : GoString)
    (tomlData : projectConfig) (out : GoString)
    (hdue : DeadlineOk parse tomlData.DueDate) :
    ∃ run, test_project lower parse now sep tomlData (Completed out) = .ok run ∧
      run.currentPasses = executionPass tomlData +
        matchingLines lower tomlData.ExpectedOutPuts (Split out sep) ∧
      (run.reports.filter Report.isLinePass).length =
        matchingLines lower tomlData.ExpectedOutPuts (Split out sep) ∧
      (run.reports.filter Report.isLine).length =
        compareBound tomlData.ExpectedOutPuts (Split out sep) := by
  obtain ⟨due, _, hl, h⟩ := test_project_completed lower parse now sep tomlData out hdue
  refine ⟨_, h, rfl, ?_, ?_⟩
  · have hd : Report.isLinePass due = false := by
      cases due <;> simp_all [Report.isLine, Report.isLinePass]
    show ((due :: Report.execution true :: lineReports _ _ _ _ _).filter _).length = _
    rw [List.filter_cons_of_neg (by simp [hd]), List.filter_cons_of_neg (by simp [Report.isLinePass]),
      ← matchesFrom_zero_ind, lineReports_passes]
    simp only [compareBound, Nat.sub_zero]
  · show ((due :: Report.execution true :: lineReports _ _ _ _ _).filter _).length = _
    rw [List.filter_cons_of_neg (by simp [hl]), List.filter_cons_of_neg (by simp [Report.isLine]),
      lineReports_filter_isLine]
    simp [lineReports]

/-- Witness for C2: output lines `["hello","","world"]` against expected
`["hello","world"]` give exactly one match, not two. -/
theorem test_project_line_passes_witness :
    Split "hello\n\nworld".toList (lineBreak false) =
      ["hello".toList, [], "world".toList] ∧
    ∃ run, test_project asciiLower (fun _ => none) 0 (lineBreak false)
        (sampleConfig ["hello".toList, "world".toList] 2 false)
        (Completed "hello\n\nworld".toList) = .ok run ∧ run.currentPasses = 1 := by
  refine ⟨by decide, ?_⟩
  obtain ⟨run, h, hp, _⟩ := test_project_line_passes asciiLower (fun _ => none) 0
    (lineBreak false) (sampleConfig ["hello".toList, "world".toList] 2 false)
    "hello\n\nworld".toList (Or.inl rfl)
  exact ⟨run, h, hp.trans (by decide)⟩

/-- C3. When the outcome is `TimedOut` or `ExecutionError` and the deadline
step does not panic, `test_project` returns (it does not panic), the verdict
is `false` whatever `RequiredPasses`, the expected outputs and
`CountExecutionAsPass` are, no pass is counted and no line comparison is
reported. -/
theorem test_project_failed_outcome (lower : GoString → GoString)
    (parse : GoString → Option Int) (now : Int) (sep : GoString)
    (tomlData : projectConfig) (res : SelectResult)
    (hdue : DeadlineOk parse tomlData.DueDate)
    (hres : res = TimedOut ∨ ∃ out msg, res = ExecutionError out msg) :
    ∃ run, test_project lower parse now sep tomlData res = .ok run ∧
      run.verdict = false ∧ run.currentPasses = 0 ∧
      run.reports.filter Report.isLine = [] := by
  obtain ⟨due, hd, hl⟩ := deadlineCheck_ok parse now tomlData.DueDate hdue
  rcases hres with rfl | ⟨out, msg, rfl⟩
  · refine ⟨{ verdict := false, currentPasses := 0, reports := [due, .timedOut] },
      by simp only [test_project, hd], rfl, rfl, ?_⟩
    rw [List.filter_cons_of_neg (by simp [hl]), List.filter_cons_of_neg (by simp [Report.isLine])]
    rfl
  · refine ⟨{ verdict := false, currentPasses := 0, reports := [due, .execution false] },
      by simp only [test_project, hd], rfl, rfl, ?_⟩
    rw [List.filter_cons_of_neg (by simp [hl]), List.filter_cons_of_neg (by simp [Report.isLine])]
    rfl

/-- Witness for C3: a timed-out run with `RequiredPasses = 0` and one with
`RequiredPasses = -5` and an execution error both return `false`. -/
theorem test_project_failed_outcome_witness :
    (∃ run, test_project asciiLower (fun _ => none) 0 (lineBreak false)
        (sampleConfig ["hello".toList] 0 true) TimedOut = .ok run ∧
      run.verdict = false ∧ run.currentPasses = 0 ∧
      run.reports.filter Report.isLine = []) ∧
    (∃ run, test_project asciiLower (fun _ => none) 0 (lineBreak false)
        (sampleConfig ["hello".toList] (-5) true)
        (ExecutionError "hello\n".toList "exit status 1".toList) = .ok run ∧
      run.verdict = false ∧ run.currentPasses = 0 ∧
      run.reports.filter Report.isLine = []) :=
  ⟨test_project_failed_outcome asciiLower (fun _ => none) 0 (lineBreak false)
      (sampleConfig ["hello".toList] 0 true) TimedOut (Or.inl rfl) (Or.inl rfl),
   test_project_failed_outcome asciiLower (fun _ => none) 0 (lineBreak false)
      (sampleConfig ["hello".toList] (-5) true)
      (ExecutionError "hello\n".toList "exit status 1".toList) (Or.inl rfl)
      (Or.inr ⟨_, _, rfl⟩)⟩

/-- C4. On a `Completed` outcome the pass count with
`CountExecutionAsPass = true` is exactly one more than the pass count with
`CountExecutionAsPass = false`, whatever the output is; with
`CountExecutionAsPass = true` and no matching line it is exactly 1. -/
theorem test_project_execution_pass (lower : GoString → GoString)
    (parse : GoString → Option Int) (now : Int) (sep : GoString)
    (tomlData : projectConfig) (out : GoString)
    (hdue : DeadlineOk parse tomlData.DueDate) :
    ∃ runT runF,
      test_project lower parse now sep { tomlData with CountExecutionAsPass := true }
        (Completed out) = .ok runT ∧
      test_project lower parse now sep { tomlData with CountExecutionAsPass := false }
        (Completed out) = .ok runF ∧
      runT.currentPasses = runF.currentPasses + 1 ∧
      (matchingLines lower tomlData.ExpectedOutPuts (Split out sep) = 0 →
        runT.currentPasses = 1) := by
  obtain ⟨_, _, _, hT⟩ := test_project_completed lower parse now sep
    { tomlData with CountExecutionAsPass := true } out hdue
  obtain ⟨_, _, _, hF⟩ := test_project_completed lower parse now sep
    { tomlData with CountExecutionAsPass := false } out hdue
  refine ⟨_, _, hT, hF, ?_, ?_⟩
  · simp only [executionPass]; simp; omega
  · intro h0
    simp only [executionPass, h0]; simp

/-- Witness for C4: output `nope` against expected `["hello","world"]` has no
matching line, and the pass count with the execution pass is 1. -/
theorem test_project_execution_pass_witness :
    ∃ runT runF,
      test_project asciiLower (fun _ => none) 0 (lineBreak false)
        { sampleConfig ["hello".toList, "world".toList] 1 false with
            CountExecutionAsPass := true }
        (Completed "nope\n".toList) = .ok runT ∧
      test_project asciiLower (fun _ => none) 0 (lineBreak false)
        { sampleConfig ["hello".toList, "world".toList] 1 false with
            CountExecutionAsPass := false }
        (Completed "nope\n".toList) = .ok runF ∧
      runT.currentPasses = runF.currentPasses + 1 ∧ runT.currentPasses = 1 := by
  obtain ⟨runT, runF, hT, hF, h1, h2⟩ := test_project_execution_pass asciiLower
    (fun _ => none) 0 (lineBreak false) (sampleConfig ["hello".toList, "world".toList] 1 false)
    "nope\n".toList (Or.inl rfl)
  exact ⟨runT, runF, hT, hF, h1, h2 (by decide)⟩

/-! ## Lemmas: paths -/

theorem pathElemsAux_append_sep (a b : GoString) :
    ∀ cur : GoString, pathElemsAux (a ++ '/' :: b) cur = pathElemsAux a cur ++ pathElems b := by
  induction a with
  | nil =>
    intro cur
    by_cases hc : cur = []
    · simp [pathElemsAux, pathElems, hc]
    · simp [pathElemsAux, pathElems, hc]
  | cons c a ih =>
    intro cur
    by_cases h : c = '/'
    · by_cases hc : cur = []
      · simp [pathElemsAux, h, hc, ih]
      · simp [pathElemsAux, h, hc, ih]
    · simp [pathElemsAux, h, ih]

theorem pathElems_append_sep (a b : GoString) :
    pathElems (a ++ '/' :: b) = pathElems a ++ pathElems b :=
  pathElemsAux_append_sep a b []

theorem pathElemsAux_nosep (n rest : GoString) (h : '/' ∉ n) :
    ∀ cur : GoString, pathElemsAux (n ++ rest) cur = pathElemsAux rest (cur ++ n) := by
  induction n with
  | nil => intro cur; simp
  | cons c n ih =>
    intro cur
    have hc : c ≠ '/' := fun e => h (by simp [e])
    have hn : '/' ∉ n := fun e => h (List.mem_cons_of_mem _ e)
    simp [pathElemsAux, hc, ih hn]

theorem pathElemsAux_good (p : GoString) :
    ∀ cur : GoString, '/' ∉ cur → ∀ e ∈ pathElemsAux p cur, GoodName e := by
  induction p with
  | nil =>
    intro cur hc e he
    by_cases h : cur = []
    · simp [pathElemsAux, h] at he
    · simp [pathElemsAux, h] at he
      subst he
      exact ⟨h, hc⟩
  | cons c p ih =>
    intro cur hc e he
    by_cases h : c = '/'
    · by_cases h' : cur = []
      · simp [pathElemsAux, h, h'] at he
        exact ih [] (by simp) e he
      · simp [pathElemsAux, h, h'] at he
        rcases he with rfl | he
        · exact ⟨h', hc⟩
        · exact ih [] (by simp) e he
    · simp [pathElemsAux, h] at he
      refine ih (cur ++ [c]) ?_ e he
      simp [hc, Ne.symm h]

theorem pathElems_good (p : GoString) : ∀ e ∈ pathElems p, GoodName e :=
  pathElemsAux_good p [] (by simp)

theorem joinElems_nil : joinElems [] = [] := rfl

theorem joinElems_cons (e : GoString) (es : List GoString) :
    joinElems (e :: es) = '/' :: e ++ joinElems es := by
  simp [joinElems]

theorem joinElems_append (xs ys : List GoString) :
    joinElems (xs ++ ys) = joinElems xs ++ joinElems ys := by
  simp [joinElems]

theorem pathElemsAux_joinElems (es : List GoString) (hes : ∀ e ∈ es, GoodName e) :
    ∀ cur : GoString,
      pathElemsAux (joinElems es) cur = (if cur = [] then [] else [cur]) ++ es := by
  induction es with
  | nil =>
    intro cur
    by_cases h : cur = []
    · simp [joinElems, pathElemsAux, h]
    · simp [joinElems, pathElemsAux, h]
  | cons e es ih =>
    intro cur
    have he : GoodName e := hes e (by simp)
    have ih' := ih (fun x hx => hes x (List.mem_cons_of_mem _ hx)) e
    rw [joinElems_cons]
    have h1 : pathElemsAux ('/' :: e ++ joinElems es) cur =
        (if cur = [] then [] else [cur]) ++ pathElemsAux (e ++ joinElems es) [] := by
      by_cases h : cur = []
      · simp [pathElemsAux, h]
      · simp [pathElemsAux, h]
    rw [h1, pathElemsAux_nosep e _ he.2, List.nil_append, ih', if_neg he.1]
    simp

theorem pathElems_joinElems (es : List GoString) (hes : ∀ e ∈ es, GoodName e) :
    pathElems (joinElems es) = es := by
  unfold pathElems
  rw [pathElemsAux_joinElems es hes]
  simp

theorem cleanStep_plain (stk : List GoString) (e : GoString)
    (hs : ∀ x ∈ stk, Plain x) (he : GoodName e) :
    ∀ x ∈ cleanStep true stk e, Plain x := by
  unfold cleanStep
  by_cases h1 : e = ['.']
  · simpa [h1] using hs
  · by_cases h2 : e = ['.', '.']
    · cases stk with
      | nil => simp [h1, h2]
      | cons top below =>
        have ht : top ≠ ['.', '.'] := (hs top (by simp)).2.2
        simp only [h2, if_neg ht]
        intro x hx
        have : x ∈ below := by simpa using hx
        exact hs x (List.mem_cons_of_mem _ this)
    · simp only [h1, h2, if_false]
      intro x hx
      rcases List.mem_cons.mp hx with rfl | hx
      · exact ⟨he, h1, h2⟩
      · exact hs x hx

theorem foldl_cleanStep_plain (elems : List GoString) :
    ∀ stk : List GoString, (∀ x ∈ stk, Plain x) → (∀ e ∈ elems, GoodName e) →
      ∀ x ∈ elems.foldl (cleanStep true) stk, Plain x := by
  induction elems with
  | nil => intro stk hs _; simpa using hs
  | cons e es ih =>
    intro stk hs he
    rw [List.foldl_cons]
    exact ih _ (cleanStep_plain stk e hs (he e (by simp)))
      (fun x hx => he x (List.mem_cons_of_mem _ hx))

theorem foldl_cleanStep_of_plain (rooted : Bool) (elems : List GoString)
    (he : ∀ e ∈ elems, Plain e) :
    ∀ stk : List GoString, elems.foldl (cleanStep rooted) stk = elems.reverse ++ stk := by
  induction elems with
  | nil => intro stk; simp
  | cons e es ih =>
    intro stk
    have hp := he e (by simp)
    rw [List.foldl_cons, ih (fun x hx => he x (List.mem_cons_of_mem _ hx))]
    simp [cleanStep, hp.2.1, hp.2.2]

theorem IsAbs_iff (p : GoString) : IsAbs p = true ↔ ∃ t, p = '/' :: t := by
  cases p with
  | nil => simp [IsAbs, HasPrefix]
  | cons c t =>
    simp only [IsAbs, HasPrefix, List.isPrefixOf, Bool.and_true, beq_iff_eq, List.cons.injEq]
    constructor
    · intro h; exact ⟨t, h.symm, rfl⟩
    · rintro ⟨_, h, _⟩; exact h.symm

/-- The cleaned form of a rooted path, from the key it resolves to. -/
theorem Clean_rooted (p : GoString) (hp : IsAbs p = true) :
    Clean p = if (pathElems p).foldl (cleanStep true) [] = [] then ['/']
      else joinElems ((pathElems p).foldl (cleanStep true) []).reverse := by
  obtain ⟨t, rfl⟩ := (IsAbs_iff p).mp hp
  unfold Clean
  simp only [hp, cleanElems, if_true]
  simp

theorem IsAbs_joinElems (es : List GoString) (h : es ≠ []) : IsAbs (joinElems es) = true := by
  cases es with
  | nil => exact absurd rfl h
  | cons e es => rw [joinElems_cons]; exact (IsAbs_iff _).mpr ⟨_, rfl⟩

theorem IsAbs_Clean (p : GoString) (hp : IsAbs p = true) : IsAbs (Clean p) = true := by
  rw [Clean_rooted p hp]
  split
  · rfl
  · apply IsAbs_joinElems
    simpa using ‹¬ _›

theorem rootKey_plain (p : GoString) : ∀ x ∈ rootKey p, Plain x :=
  foldl_cleanStep_plain (pathElems p) [] (by simp) (pathElems_good p)

theorem pathElems_Clean (p : GoString) (hp : IsAbs p = true) :
    pathElems (Clean p) = (rootKey p).reverse := by
  rw [Clean_rooted p hp]
  split
  · rename_i h
    show pathElems ['/'] = (rootKey p).reverse
    unfold rootKey
    rw [h]; rfl
  · apply pathElems_joinElems
    intro e he
    exact (rootKey_plain p e (by simpa using he)).1

theorem rootKey_Clean (p : GoString) (hp : IsAbs p = true) : rootKey (Clean p) = rootKey p := by
  unfold rootKey
  rw [pathElems_Clean p hp, foldl_cleanStep_of_plain]
  · simp [rootKey]
  · intro e he
    exact rootKey_plain p e (by simpa using he)

theorem osKey_rooted (cwd p : GoString) (hp : IsAbs p = true) : osKey cwd p = rootKey p := by
  simp [osKey, hp, rootKey]

theorem Clean_idem (p : GoString) (hp : IsAbs p = true) : Clean (Clean p) = Clean p := by
  rw [Clean_rooted (Clean p) (IsAbs_Clean p hp), Clean_rooted p hp]
  have := rootKey_Clean p hp
  unfold rootKey at this
  rw [Clean_rooted p hp] at this
  rw [this]

/-! ## Lemmas: pack_project -/

theorem IsAbs_append (a b : GoString) (ha : IsAbs a = true) : IsAbs (a ++ b) = true := by
  obtain ⟨t, rfl⟩ := (IsAbs_iff a).mp ha
  exact (IsAbs_iff _).mpr ⟨t ++ b, rfl⟩

theorem Join_rooted (a b : GoString) (ha : IsAbs a = true) :
    Join a b = Clean (a ++ '/' :: b) := by
  obtain ⟨t, rfl⟩ := (IsAbs_iff a).mp ha
  simp [Join]

theorem IsAbs_Join (a b : GoString) (ha : IsAbs a = true) : IsAbs (Join a b) = true := by
  rw [Join_rooted a b ha]
  exact IsAbs_Clean _ (IsAbs_append a _ ha)

theorem rootKey_append_sep (a b : GoString) :
    rootKey (a ++ '/' :: b) = (pathElems b).foldl (cleanStep true) (rootKey a) := by
  unfold rootKey
  rw [pathElems_append_sep, List.foldl_append]

theorem rootKey_Join (a b : GoString) (ha : IsAbs a = true) :
    rootKey (Join a b) = (pathElems b).foldl (cleanStep true) (rootKey a) := by
  rw [Join_rooted a b ha, rootKey_Clean _ (IsAbs_append a _ ha), rootKey_append_sep]

theorem IsAbs_Abs (cwd p : GoString) (hcwd : IsAbs cwd = true) : IsAbs (Abs cwd p) = true := by
  unfold Abs
  by_cases hp : IsAbs p = true
  · rw [if_pos hp]; exact IsAbs_Clean p hp
  · rw [if_neg hp]; exact IsAbs_Join cwd p hcwd

theorem osKey_Abs (cwd p : GoString) (hcwd : IsAbs cwd = true) :
    osKey cwd (Abs cwd p) = osKey cwd p := by
  rw [osKey_rooted cwd _ (IsAbs_Abs cwd p hcwd)]
  unfold Abs
  by_cases hp : IsAbs p = true
  · rw [if_pos hp, rootKey_Clean p hp, osKey_rooted cwd p hp]
  · rw [if_neg hp, rootKey_Join cwd p hcwd]
    simp [osKey, hp, rootKey]

theorem endsWithSep_append_name (x n : GoString) (hn : GoodName n) :
    endsWithSep (x ++ '/' :: n) = false := by
  unfold endsWithSep
  have hne : n ≠ [] := hn.1
  have h1 : (x ++ '/' :: n).getLast? = n.getLast? := by
    rw [show x ++ '/' :: n = (x ++ ['/']) ++ n by simp, List.getLast?_append_of_ne_nil _ hne]
  rw [h1]
  cases hl : n.getLast? with
  | none => simp
  | some c =>
    have hc : c ∈ n := List.mem_of_getLast?_eq_some hl
    have : c ≠ '/' := fun e => hn.2 (e ▸ hc)
    simp [this]

theorem endsWithSep_joinElems (es : List GoString) (hes : ∀ e ∈ es, GoodName e) :
    endsWithSep (joinElems es) = false := by
  rcases List.eq_nil_or_concat es with rfl | ⟨init, last, rfl⟩
  · rfl
  · rw [List.concat_eq_append, joinElems_append, joinElems_cons, joinElems_nil,
      List.append_nil]
    exact endsWithSep_append_name _ _ (hes last (by simp))

/-- A cleaned rooted path ends with a separator only when it is the root. -/
theorem endsWithSep_Clean (p : GoString) (hp : IsAbs p = true) (hk : rootKey p ≠ []) :
    endsWithSep (Clean p) = false := by
  rw [Clean_rooted p hp]
  have hk' : ¬ List.foldl (cleanStep true) [] (pathElems p) = [] := hk
  rw [if_neg hk']
  apply endsWithSep_joinElems
  intro e he
  exact (rootKey_plain p e (by simpa using he)).1

theorem endsWithSep_Abs (cwd p : GoString) (hcwd : IsAbs cwd = true)
    (hk : osKey cwd p ≠ []) : endsWithSep (Abs cwd p) = false := by
  have hkey := osKey_Abs cwd p hcwd
  rw [osKey_rooted cwd _ (IsAbs_Abs cwd p hcwd)] at hkey
  unfold Abs at hkey ⊢
  by_cases hp : IsAbs p = true
  · rw [if_pos hp] at hkey ⊢
    rw [rootKey_Clean p hp] at hkey
    exact endsWithSep_Clean p hp (by rw [hkey]; exact hk)
  · rw [if_neg hp] at hkey ⊢
    rw [Join_rooted cwd p hcwd] at hkey ⊢
    rw [rootKey_Clean _ (IsAbs_append cwd _ hcwd)] at hkey
    exact endsWithSep_Clean _ (IsAbs_append cwd _ hcwd) (by rw [hkey]; exact hk)

/-- What `os.Open(filepath.Abs(filename))` finds is what the key of `filename`
holds. -/
theorem osStat_Abs (cwd : GoString) (fs : FS) (p : GoString) (hcwd : IsAbs cwd = true) :
    osStat cwd fs (Abs cwd p) = fs.node (osKey cwd p) := by
  unfold osStat
  rw [osKey_Abs cwd p hcwd]
  by_cases hk : osKey cwd p = []
  · simp [FS.node, hk]
  · rw [endsWithSep_Abs cwd p hcwd hk]
    cases h : fs.node (osKey cwd p) with
    | none => rfl
    | some n => cases n <;> simp

theorem OpenFileTrunc_eq (cwd : GoString) (fs fs1 : FS) (path : GoString)
    (h : OpenFileTrunc cwd fs path = some fs1) :
    fs1 = fs.set (osKey cwd path) (.file []) ∧ osKey cwd path ≠ [] ∧
      fs.node (osKey cwd path) ≠ some .dir := by
  unfold OpenFileTrunc at h
  cases hk : osKey cwd path with
  | nil => simp [hk] at h
  | cons name parent =>
    simp only [hk] at h
    have hnode : fs.node (name :: parent) = fs (name :: parent) := by simp [FS.node]
    cases hn : fs (name :: parent) with
    | none =>
      simp only [hn] at h
      split_ifs at h
      · exact ⟨(Option.some.inj h).symm, by simp, by simp [hnode, hn]⟩
    | some n =>
      cases n with
      | dir => simp [hn] at h
      | file c =>
        simp only [hn] at h
        split_ifs at h
        exact ⟨(Option.some.inj h).symm, by simp, by simp [hnode, hn]⟩

theorem FS.node_set_of_ne (fs : FS) (k q : Key) (n : Node) (h : q ≠ k) :
    (fs.set k n).node q = fs.node q := by
  simp [FS.node, FS.set, h]

theorem packLoop_entries (cwd : GoString) (fs fs1 : FS) (hcwd : IsAbs cwd = true)
    (files : List GoString) :
    ∀ written : List ZipEntry,
      (∀ p ∈ files, fs1.node (osKey cwd p) = fs.node (osKey cwd p)) →
      (∀ p ∈ files, isRegular (osStat cwd fs p) = true) →
      packLoop cwd fs1 written files =
        { entries := written ++ files.map (fileEntry cwd fs), exit := .done } := by
  induction files with
  | nil => intro written _ _; simp [packLoop]
  | cons p rest ih =>
    intro written hsame hread
    have hp := hread p (by simp)
    have hs := hsame p (by simp)
    unfold packLoop
    simp only
    rw [osStat_Abs cwd fs1 p hcwd, hs]
    unfold osStat at hp
    cases hn : fs.node (osKey cwd p) with
    | none => simp [hn, isRegular] at hp
    | some n =>
      cases n with
      | dir => simp [hn, isRegular] at hp
      | file c =>
        simp only [hn] at hp
        have hsep : endsWithSep p = false := by
          by_contra hne
          simp [hne, isRegular] at hp
        have hbytes : fileBytes cwd fs p = c := by
          simp [fileBytes, osStat, hn, hsep]
        simp only [hsep, Bool.false_eq_true, false_and, if_false]
        rw [ih _ (fun q hq => hsame q (List.mem_cons_of_mem _ hq))
          (fun q hq => hread q (List.mem_cons_of_mem _ hq))]
        simp [fileEntry, hbytes]

/-- What `pack_project` does when nothing fails, in closed form. -/
theorem pack_project_done (cwd : GoString) (fs : FS) (tomlData : projectConfig)
    (hcwd : IsAbs cwd = true)
    (hcreate : (packSnapshot cwd fs tomlData).isSome = true)
    (hself : ∀ p ∈ tomlData.ProjFiles, osKey cwd p ≠ osKey cwd (archiveName tomlData))
    (hread : ∀ p ∈ tomlData.ProjFiles, isRegular (osStat cwd fs p) = true) :
    pack_project cwd fs tomlData =
      { entries := tomlData.ProjFiles.map (fileEntry cwd fs), exit := .done } := by
  obtain ⟨fs1, h1⟩ := Option.isSome_iff_exists.mp hcreate
  obtain ⟨hfs1, _, _⟩ := OpenFileTrunc_eq cwd fs fs1 _ h1
  unfold pack_project
  rw [h1]
  simp only
  rw [packLoop_entries cwd fs fs1 hcwd tomlData.ProjFiles []]
  · simp
  · intro p hp
    rw [hfs1]
    exact FS.node_set_of_ne fs _ _ _ (hself p hp)
  · exact hread

/-! ## Theorems: pack_project -/

/-- C9. When the archive file can be created, every tracked path names a
readable regular file and none of them is the archive under construction,
`pack_project` ends normally and the archive holds exactly one entry per
element of `ProjFiles`, in the order of `ProjFiles`, each named by the tracked
path as given and holding the bytes of the file at that path. -/
theorem pack_project_entries (cwd : GoString) (fs : FS) (tomlData : projectConfig)
    (hcwd : IsAbs cwd = true)
    (hcreate : (packSnapshot cwd fs tomlData).isSome = true)
    (hself : ∀ p ∈ tomlData.ProjFiles, osKey cwd p ≠ osKey cwd (archiveName tomlData))
    (hread : ∀ p ∈ tomlData.ProjFiles, isRegular (osStat cwd fs p) = true) :
    (pack_project cwd fs tomlData).exit = .done ∧
    (pack_project cwd fs tomlData).entries.map ZipEntry.Name = tomlData.ProjFiles ∧
    (pack_project cwd fs tomlData).entries =
      tomlData.ProjFiles.map (fun p =>
        { Name := p, attrDir := false, data := .content (fileBytes cwd fs p) }) ∧
    ∀ p ∈ tomlData.ProjFiles, osStat cwd fs p = some (.file (fileBytes cwd fs p)) := by
  rw [pack_project_done cwd fs tomlData hcwd hcreate hself hread]
  refine ⟨rfl, ?_, rfl, ?_⟩
  · simp [fileEntry, Function.comp_def]
  · intro p hp
    have h := hread p hp
    unfold fileBytes
    cases hs : osStat cwd fs p with
    | none => simp [hs, isRegular] at h
    | some n =>
      cases n with
      | dir => simp [hs, isRegular] at h
      | file c => rfl

/-- Witness for C9: packing `a.txt` and `b.txt` in `/w`. -/
theorem pack_project_entries_witness :
    (pack_project "/w".toList sampleFS
      (sampleProject ["a.txt".toList, "b.txt".toList])).entries =
      [{ Name := "a.txt".toList, attrDir := false, data := .content [104, 105] },
       { Name := "b.txt".toList, attrDir := false, data := .content [98, 121, 101] }] :=
  (pack_project_entries "/w".toList sampleFS (sampleProject ["a.txt".toList, "b.txt".toList])
    (by decide) (by decide) (by decide) (by decide)).2.2.1

theorem packLoop_aborts (cwd : GoString) (fs1 : FS) (hcwd : IsAbs cwd = true)
    (p : GoString) (post : List GoString)
    (hbad : isRegular (fs1.node (osKey cwd p)) = false) (pre : List GoString) :
    ∀ written : List ZipEntry,
      (packLoop cwd fs1 written (pre ++ p :: post)).exit = .panicked ∧
      (packLoop cwd fs1 written (pre ++ p :: post)).entries.map ZipEntry.Name <+:
        written.map ZipEntry.Name ++ (pre ++ [p]) := by
  induction pre with
  | nil =>
    intro written
    rw [List.nil_append]
    unfold packLoop
    simp only
    rw [osStat_Abs cwd fs1 p hcwd]
    cases hn : fs1.node (osKey cwd p) with
    | none => simp
    | some n =>
      cases n with
      | dir => simp
      | file c => simp [hn, isRegular] at hbad
  | cons q pre ih =>
    intro written
    rw [List.cons_append]
    unfold packLoop
    simp only
    rw [osStat_Abs cwd fs1 q hcwd]
    cases hn : fs1.node (osKey cwd q) with
    | none => simp
    | some n =>
      cases n with
      | dir =>
        simp only [List.map_append, List.map_cons, List.map_nil, true_and]
        exact ⟨pre ++ [p], by simp⟩
      | file c =>
        simp only
        split_ifs with hdir
        · simp only [List.map_append, List.map_cons, List.map_nil, true_and]
          exact ⟨pre ++ [p], by simp⟩
        · obtain ⟨h1, h2⟩ := ih (written ++ [{ Name := q, attrDir := false, data := .content c }])
          refine ⟨h1, ?_⟩
          simpa using h2

/-- C10. When a tracked path does not resolve to a regular file at the moment
`pack_project` opens it (nothing is there, or a directory is),
`pack_project` panics: it never ends normally, and the archive holds no entry
for any tracked path after that one (its entry names are a prefix of the
tracked paths up to and including it). -/
theorem pack_project_aborts (cwd : GoString) (fs : FS) (tomlData : projectConfig)
    (pre post : List GoString) (p : GoString)
    (hcwd : IsAbs cwd = true)
    (hfiles : tomlData.ProjFiles = pre ++ p :: post)
    (hbad : isRegular (trackedNode cwd fs tomlData p) = false) :
    (pack_project cwd fs tomlData).exit = .panicked ∧
    (pack_project cwd fs tomlData).entries.map ZipEntry.Name <+: pre ++ [p] := by
  unfold pack_project
  unfold trackedNode at hbad
  cases h1 : packSnapshot cwd fs tomlData with
  | none => simp
  | some fs1 =>
    rw [h1] at hbad
    simp only [hfiles]
    simpa using packLoop_aborts cwd fs1 hcwd p post hbad pre []

/-- Witness for C10: `missing.txt` does not exist, `b.txt` after it is not
added. -/
theorem pack_project_aborts_witness :
    (pack_project "/w".toList sampleFS
        (sampleProject ["a.txt".toList, "missing.txt".toList, "b.txt".toList])).exit
      = .panicked ∧
    (pack_project "/w".toList sampleFS
        (sampleProject ["a.txt".toList, "missing.txt".toList, "b.txt".toList])).entries.map
        ZipEntry.Name <+: ["a.txt".toList] ++ ["missing.txt".toList] :=
  pack_project_aborts "/w".toList sampleFS
    (sampleProject ["a.txt".toList, "missing.txt".toList, "b.txt".toList])
    ["a.txt".toList] ["b.txt".toList] "missing.txt".toList (by decide) rfl (by decide)

/-! ## Theorems: the destination directory -/

/-- C8. The destination directory of `unpack_project` at the archive
`hw1.zip.zip` (what `pack_project` writes for a project named `hw1.zip`) in
`/home/may`: every `.zip` is removed from the name, not only the trailing
extension, so the directory is `/home/may/hw1` and not `/home/may/hw1.zip`.
For `project.zip` it is `/home/may/project`. -/
theorem destDir_removes_every_zip :
    archiveName (sampleProject []) = "proj.zip".toList ∧
    archiveName { sampleProject [] with ProjectName := "hw1.zip".toList } =
      "hw1.zip.zip".toList ∧
    destDir "/home/may".toList "hw1.zip.zip".toList = "/home/may/hw1".toList ∧
    destDir "/home/may".toList "hw1.zip.zip".toList ≠ "/home/may/hw1.zip".toList ∧
    destDir "/home/may".toList "project.zip".toList = "/home/may/project".toList := by
  decide

/-! ## Lemmas: unpack_project -/

theorem Clean_eq_of_rootKey (p q : GoString) (hp : IsAbs p = true) (hq : IsAbs q = true)
    (h : rootKey p = rootKey q) : Clean p = Clean q := by
  rw [Clean_rooted p hp, Clean_rooted q hq]
  unfold rootKey at h
  rw [h]

/-- An entry that passes the guard resolves strictly inside the destination. -/
theorem pathGuard_key (dest name : GoString) (hd : IsAbs dest = true)
    (hg : pathGuard dest (Join dest name) = true) :
    ∃ r, r ≠ [] ∧ rootKey (Join dest name) = r ++ rootKey dest := by
  have hx : IsAbs (dest ++ '/' :: name) = true := IsAbs_append dest _ hd
  rw [Join_rooted dest name hd] at hg ⊢
  unfold pathGuard HasPrefix at hg
  obtain ⟨s, hs⟩ := List.isPrefixOf_iff_prefix.mp hg
  have hs' : Clean (dest ++ '/' :: name) = Clean dest ++ '/' :: s := by
    rw [← hs]; simp
  have he := congrArg pathElems hs'
  rw [pathElems_append_sep, pathElems_Clean _ hx, pathElems_Clean _ hd] at he
  have hk : rootKey (dest ++ '/' :: name) = (pathElems s).reverse ++ rootKey dest := by
    have := congrArg List.reverse he
    simpa using this
  refine ⟨(pathElems s).reverse, ?_, ?_⟩
  · intro hnil
    rw [hnil, List.nil_append] at hk
    have hc := Clean_eq_of_rootKey _ _ hx hd hk
    rw [hc] at hs'
    have := congrArg List.length hs'
    simp at this
  · rw [rootKey_Clean _ hx, hk]

theorem uptoLastSep_append (y n : GoString) (hn : '/' ∉ n) :
    uptoLastSep (y ++ '/' :: n) = y ++ ['/'] := by
  induction y with
  | nil => simp [uptoLastSep, hn]
  | cons c y ih => simp [uptoLastSep, ih]

theorem rootKey_joinElems (es : List GoString) (hes : ∀ e ∈ es, Plain e) :
    rootKey (joinElems es) = es.reverse := by
  unfold rootKey
  rw [pathElems_joinElems es (fun e he => (hes e he).1), foldl_cleanStep_of_plain true es hes]
  simp

/-- The directory of a cleaned rooted path resolves to the parent key. -/
theorem Dir_Clean (p : GoString) (hp : IsAbs p = true) (n : GoString) (par : Key)
    (hk : rootKey p = n :: par) :
    IsAbs (Dir (Clean p)) = true ∧ rootKey (Dir (Clean p)) = par := by
  have hplain := rootKey_plain p
  rw [hk] at hplain
  have hn : Plain n := hplain n (by simp)
  have hpar : ∀ e ∈ par.reverse, Plain e := fun e he =>
    hplain e (List.mem_cons_of_mem _ (by simpa using he))
  have hc : Clean p = joinElems par.reverse ++ '/' :: n := by
    rw [Clean_rooted p hp]
    have hk' : List.foldl (cleanStep true) [] (pathElems p) = n :: par := hk
    rw [hk']
    simp [joinElems_append, joinElems_cons, joinElems_nil]
  have hy : IsAbs (joinElems par.reverse ++ ['/']) = true := by
    cases hr : par.reverse with
    | nil => rfl
    | cons e es => exact IsAbs_append _ _ (IsAbs_joinElems _ (by simp))
  unfold Dir
  rw [hc, uptoLastSep_append _ _ hn.1.2]
  refine ⟨IsAbs_Clean _ hy, ?_⟩
  rw [rootKey_Clean _ hy, rootKey_append_sep, rootKey_joinElems _ hpar]
  simp [pathElems, pathElemsAux]

theorem mkdirAllKey_changes (k : Key) :
    ∀ (fs fs1 : FS), mkdirAllKey fs k = some fs1 →
      ∀ q, fs1 q ≠ fs q →
        fs q = none ∧ fs1 q = some .dir ∧ q <:+ k ∧ q ≠ [] ∧
          ∀ d, q <:+ d → d <:+ k → fs d = none := by
  induction k with
  | nil =>
    intro fs fs1 h q hq
    simp [mkdirAllKey] at h
    exact absurd (by rw [h]) hq
  | cons name parent ih =>
    intro fs fs1 h q hq
    unfold mkdirAllKey at h
    cases hn : fs (name :: parent) with
    | some n =>
      cases n with
      | dir =>
        simp [hn] at h
        exact absurd (by rw [h]) hq
      | file c => simp [hn] at h
    | none =>
      simp only [hn] at h
      cases hm : mkdirAllKey fs parent with
      | none => simp [hm] at h
      | some fs2 =>
        simp only [hm, Option.some.injEq] at h
        subst h
        by_cases hqk : q = name :: parent
        · subst hqk
          refine ⟨hn, by simp [FS.set], List.suffix_refl _, by simp, ?_⟩
          intro d h1 h2
          have : d = name :: parent := List.IsSuffix.eq_of_length_le h2 (h1.length_le) |>.symm ▸ rfl
          rw [this]; exact hn
        · have hq2 : fs2 q ≠ fs q := by simpa [FS.set, hqk] using hq
          obtain ⟨a, b, c, d, e⟩ := ih fs fs2 hm q hq2
          refine ⟨a, by simp [FS.set, hqk, b], c.trans (List.suffix_cons _ _), d, ?_⟩
          intro x h1 h2
          rcases List.suffix_cons_iff.mp h2 with rfl | h2
          · exact hn
          · exact e x h1 h2

theorem mkdirAllKey_dir (k : Key) (fs fs1 : FS) (h : mkdirAllKey fs k = some fs1) :
    fs1.node k = some .dir := by
  cases k with
  | nil => simp [FS.node]
  | cons name parent =>
    unfold mkdirAllKey at h
    cases hn : fs (name :: parent) with
    | some n =>
      cases n with
      | dir =>
        simp [hn] at h
        subst h
        simp [FS.node, hn]
      | file c => simp [hn] at h
    | none =>
      simp only [hn] at h
      cases hm : mkdirAllKey fs parent with
      | none => simp [hm] at h
      | some fs2 =>
        simp only [hm, Option.some.injEq] at h
        subst h
        simp [FS.node, FS.set]

theorem OnlyBelow.refl (d : Key) (fs : FS) : OnlyBelow d fs fs :=
  fun _ h => absurd rfl h

theorem OnlyBelow.trans {d : Key} {fs fs1 fs2 : FS} (h1 : OnlyBelow d fs fs1)
    (h2 : OnlyBelow d fs1 fs2) : OnlyBelow d fs fs2 := by
  intro q hq
  by_cases h : fs1 q = fs q
  · exact h2 q (by rw [h]; exact hq)
  · exact h1 q h

theorem OnlyBelow.set {d k : Key} (fs : FS) (n : Node) (hk : StrictlyBelow d k) :
    OnlyBelow d fs (fs.set k n) := by
  intro q hq
  by_cases h : q = k
  · exact h ▸ hk
  · exact absurd (by simp [FS.set, h]) hq

theorem OnlyBelow.node {d : Key} {fs fs1 : FS} (h : OnlyBelow d fs fs1) :
    fs1.node d = fs.node d := by
  by_cases hd : d = []
  · simp [FS.node, hd]
  · have : fs1 d = fs d := by
      by_contra hne
      exact (h d hne).2 rfl
    simp [FS.node, hd, this]

theorem mkdirAllKey_onlyBelow (d k : Key) (fs fs1 : FS) (hdk : d <:+ k)
    (hd : fs.node d = some .dir) (h : mkdirAllKey fs k = some fs1) : OnlyBelow d fs fs1 := by
  intro q hq
  obtain ⟨_, _, hqk, hq0, hbetween⟩ := mkdirAllKey_changes k fs fs1 h q hq
  by_cases hle : q.length ≤ d.length
  · exfalso
    have hqd : q <:+ d := List.suffix_of_suffix_length_le hqk hdk hle
    have hnone := hbetween d hqd hdk
    by_cases hd0 : d = []
    · subst hd0
      exact hq0 (List.suffix_nil.mp hqd)
    · simp [FS.node, hd0, hnone] at hd
  · refine ⟨List.suffix_of_suffix_length_le hdk hqk (by omega), ?_⟩
    intro e; rw [e] at hle; exact hle (le_refl _)

/-- What the loop body does to the file system, on keys: without the guard
nothing; with it, only keys strictly inside the destination change. -/
theorem extractEntry_onlyBelow (cwd dest : GoString) (fs : FS) (f : ZipEntry)
    (hd : IsAbs dest = true) (hdir : fs.node (rootKey dest) = some .dir) :
    OnlyBelow (rootKey dest) fs (extractEntry cwd dest fs f).1 := by
  unfold extractEntry
  simp only
  by_cases hg : pathGuard dest (Join dest f.Name) = true
  · obtain ⟨r, hr, hk⟩ := pathGuard_key dest f.Name hd hg
    have habs : IsAbs (Join dest f.Name) = true := IsAbs_Join dest _ hd
    have hkey : osKey cwd (Join dest f.Name) = r ++ rootKey dest := by
      rw [osKey_rooted cwd _ habs, hk]
    have hbelow : StrictlyBelow (rootKey dest) (r ++ rootKey dest) :=
      ⟨List.suffix_append _ _, by
        intro e
        have := congrArg List.length e
        simp at this
        exact hr this⟩
    obtain ⟨n, par', hrr⟩ := List.exists_cons_of_ne_nil hr
    have hx : IsAbs (dest ++ '/' :: f.Name) = true := IsAbs_append dest _ hd
    have hkx : rootKey (dest ++ '/' :: f.Name) = n :: (par' ++ rootKey dest) := by
      rw [← rootKey_Clean _ hx, ← Join_rooted dest _ hd, hk, hrr]; rfl
    obtain ⟨hdabs, hdkey⟩ := Dir_Clean _ hx n _ hkx
    rw [← Join_rooted dest _ hd] at hdabs hdkey
    simp only [hg, Bool.not_true, Bool.false_eq_true, if_false]
    by_cases hisdir : f.IsDir = true
    · simp only [hisdir, if_true]
      unfold MkdirAll
      rw [hkey]
      cases hm : mkdirAllKey fs (r ++ rootKey dest) with
      | none => exact OnlyBelow.refl _ _
      | some fs1 =>
        exact mkdirAllKey_onlyBelow _ _ fs fs1 (List.suffix_append _ _) hdir hm
    · simp only [hisdir, Bool.false_eq_true, if_false]
      unfold MkdirAll
      rw [osKey_rooted cwd _ hdabs, hdkey]
      cases hm : mkdirAllKey fs (par' ++ rootKey dest) with
      | none => exact OnlyBelow.refl _ _
      | some fs1 =>
        have h1 : OnlyBelow (rootKey dest) fs fs1 :=
          mkdirAllKey_onlyBelow _ _ fs fs1 (List.suffix_append _ _) hdir hm
        simp only
        cases ho : OpenFileTrunc cwd fs1 (Join dest f.Name) with
        | none => exact h1
        | some fs2 =>
          obtain ⟨hfs2, _, _⟩ := OpenFileTrunc_eq cwd fs1 fs2 _ ho
          rw [hkey] at hfs2
          have h2 : OnlyBelow (rootKey dest) fs fs2 :=
            h1.trans (hfs2 ▸ OnlyBelow.set fs1 _ hbelow)
          simp only
          cases f.data with
          | openError => exact h2
          | copyError w => exact h2.trans (OnlyBelow.set fs2 _ (hkey ▸ hbelow))
          | content b => exact h2.trans (OnlyBelow.set fs2 _ (hkey ▸ hbelow))
  · simp only [hg, Bool.not_false, if_true]
    exact OnlyBelow.refl _ _

theorem extractLoop_onlyBelow (cwd dest : GoString) (hd : IsAbs dest = true)
    (files : List ZipEntry) :
    ∀ (fs : FS) (out : List GoString), fs.node (rootKey dest) = some .dir →
      OnlyBelow (rootKey dest) fs (extractLoop cwd dest fs out files).fs := by
  induction files with
  | nil => intro fs out _; exact OnlyBelow.refl _ _
  | cons f rest ih =>
    intro fs out hdir
    have h1 := extractEntry_onlyBelow cwd dest fs f hd hdir
    unfold extractLoop
    rcases hstep : extractEntry cwd dest fs f with ⟨fs1, lines, e⟩
    rw [hstep] at h1
    cases e with
    | some e => exact h1
    | none =>
      simp only
      exact h1.trans (ih fs1 _ (by rw [OnlyBelow.node h1]; exact hdir))

theorem IsAbs_destDir (cwd zipFile : GoString) (hcwd : IsAbs cwd = true) :
    IsAbs (destDir cwd zipFile) = true :=
  IsAbs_Join cwd _ hcwd

theorem Clean_destDir (cwd zipFile : GoString) (hcwd : IsAbs cwd = true) :
    Clean (destDir cwd zipFile) = destDir cwd zipFile := by
  unfold destDir
  rw [Join_rooted cwd _ hcwd]
  exact Clean_idem _ (IsAbs_append cwd _ hcwd)

theorem extractEntry_rejected (cwd dest : GoString) (fs : FS) (f : ZipEntry)
    (hg : pathGuard dest (Join dest f.Name) = false) :
    extractEntry cwd dest fs f = (fs, invalidPathLines dest f, some .invalidPath) := by
  unfold extractEntry
  simp [hg, invalidPathLines]

theorem extractLoop_rejected (cwd dest : GoString) (f : ZipEntry) (post : List ZipEntry)
    (hg : pathGuard dest (Join dest f.Name) = false) (pre : List ZipEntry) :
    ∀ (fs : FS) (out : List GoString),
      extractLoop cwd dest fs out (pre ++ f :: post) =
        if (extractLoop cwd dest fs out pre).exit = .done then
          { fs := (extractLoop cwd dest fs out pre).fs,
            stdout := (extractLoop cwd dest fs out pre).stdout ++ invalidPathLines dest f,
            exit := .invalidPath }
        else extractLoop cwd dest fs out pre := by
  induction pre with
  | nil =>
    intro fs out
    simp [extractLoop, extractEntry_rejected cwd dest fs f hg]
  | cons g pre ih =>
    intro fs out
    rw [List.cons_append]
    unfold extractLoop
    rcases hstep : extractEntry cwd dest fs g with ⟨fs1, lines, e⟩
    cases e with
    | some e =>
      simp only
      have he : e ≠ .done := by
        intro hdone
        subst hdone
        unfold extractEntry at hstep
        simp only at hstep
        split_ifs at hstep
        · simp at hstep
        · simp at hstep
        · split at hstep
          · simp at hstep
          · split at hstep
            · simp at hstep
            · split at hstep <;> simp at hstep
      simp [he]
    | none =>
      simp only
      exact ih fs1 _

/-! ## Theorems: unpack_project -/

/-- C5. With an absolute working directory, for every archive: processing an
entry changes the file system only if the computed path (the destination
directory joined with the entry name) has the destination directory followed
by a separator as a prefix; and every key at which the file system after
`unpack_project` differs from the one before lies strictly inside the
destination directory, or is the destination directory or one of its
ancestors, created as a directory where nothing was. -/
theorem unpack_project_stays_inside (cwd : GoString) (fs : FS) (zipFile : GoString)
    (reader : Option (List ZipEntry)) (hcwd : IsAbs cwd = true) :
    (∀ (fs0 : FS) (f : ZipEntry),
        (extractEntry cwd (destDir cwd zipFile) fs0 f).1 ≠ fs0 →
          (destDir cwd zipFile ++ ['/']) <+: Join (destDir cwd zipFile) f.Name) ∧
    (∀ q, (unpack_project cwd fs zipFile reader).fs q ≠ fs q →
        StrictlyBelow (osKey cwd (destDir cwd zipFile)) q ∨
        (q <:+ osKey cwd (destDir cwd zipFile) ∧ fs q = none ∧
          (unpack_project cwd fs zipFile reader).fs q = some .dir)) := by
  have hd : IsAbs (destDir cwd zipFile) = true := IsAbs_destDir cwd zipFile hcwd
  constructor
  · intro fs0 f hne
    by_contra hpre
    have hg : pathGuard (destDir cwd zipFile) (Join (destDir cwd zipFile) f.Name) = false := by
      cases h : pathGuard (destDir cwd zipFile) (Join (destDir cwd zipFile) f.Name) with
      | false => rfl
      | true =>
        unfold pathGuard HasPrefix at h
        rw [Clean_destDir cwd zipFile hcwd] at h
        exact absurd (List.isPrefixOf_iff_prefix.mp h) hpre
    rw [extractEntry_rejected cwd _ fs0 f hg] at hne
    exact hne rfl
  · intro q hq
    rw [osKey_rooted cwd _ hd]
    unfold unpack_project at hq ⊢
    cases reader with
    | none => exact absurd rfl hq
    | some files =>
      simp only at hq ⊢
      unfold MkdirAll at hq ⊢
      rw [osKey_rooted cwd _ hd] at hq ⊢
      cases hm : mkdirAllKey fs (rootKey (destDir cwd zipFile)) with
      | none =>
        rw [hm] at hq
        exact absurd rfl hq
      | some fs1 =>
        rw [hm] at hq
        simp only at hq ⊢
        have hdir := mkdirAllKey_dir _ fs fs1 hm
        have hloop := extractLoop_onlyBelow cwd _ hd files fs1 [] hdir
        by_cases h1 : (extractLoop cwd (destDir cwd zipFile) fs1 [] files).fs q = fs1 q
        · right
          rw [h1] at hq ⊢
          obtain ⟨a, b, c, _, _⟩ := mkdirAllKey_changes _ fs fs1 hm q hq
          exact ⟨c, a, b⟩
        · left
          exact hloop q h1

/-- Witness for C5: an archive whose only entry is named `../evil.txt`,
unpacked in `/w`: the entry is rejected and nothing appears at
`/w/evil.txt`. -/
theorem unpack_project_stays_inside_witness :
    (unpack_project "/w".toList sampleFS "proj.zip".toList
        (some [{ Name := "../evil.txt".toList, attrDir := false, data := .content [1] }])).exit
      = .invalidPath ∧
    (unpack_project "/w".toList sampleFS "proj.zip".toList
        (some [{ Name := "../evil.txt".toList, attrDir := false, data := .content [1] }])).fs
        ["evil.txt".toList, "w".toList] = none ∧
    ∀ q, (unpack_project "/w".toList sampleFS "proj.zip".toList
        (some [{ Name := "../evil.txt".toList, attrDir := false, data := .content [1] }])).fs q
          ≠ sampleFS q →
        StrictlyBelow (osKey "/w".toList (destDir "/w".toList "proj.zip".toList)) q ∨
        (q <:+ osKey "/w".toList (destDir "/w".toList "proj.zip".toList) ∧ sampleFS q = none ∧
          (unpack_project "/w".toList sampleFS "proj.zip".toList
            (some [{ Name := "../evil.txt".toList, attrDir := false,
                     data := .content [1] }])).fs q = some .dir) :=
  ⟨by decide, by decide,
   (unpack_project_stays_inside "/w".toList sampleFS "proj.zip".toList
      (some [{ Name := "../evil.txt".toList, attrDir := false, data := .content [1] }])
      (by decide)).2⟩

/-- C6. When the computed path of an entry fails the path-traversal guard,
`unpack_project` does not end as a completed unpack, and it leaves the file
system exactly as unpacking the entries before that one leaves it: no entry at
or after it is extracted and what was extracted before stays.  When the
entries before it were all extracted, the run ends at that entry with the
`invalid file path` report. -/
theorem unpack_project_stops_at_invalid (cwd : GoString) (fs : FS) (zipFile : GoString)
    (pre post : List ZipEntry) (f : ZipEntry)
    (hbad : pathGuard (destDir cwd zipFile) (Join (destDir cwd zipFile) f.Name) = false) :
    (unpack_project cwd fs zipFile (some (pre ++ f :: post))).exit ≠ .done ∧
    (unpack_project cwd fs zipFile (some (pre ++ f :: post))).fs =
      (unpack_project cwd fs zipFile (some pre)).fs ∧
    ((unpack_project cwd fs zipFile (some pre)).exit = .done →
      (unpack_project cwd fs zipFile (some (pre ++ f :: post))).exit = .invalidPath ∧
      (unpack_project cwd fs zipFile (some (pre ++ f :: post))).stdout =
        (unpack_project cwd fs zipFile (some pre)).stdout ++
          invalidPathLines (destDir cwd zipFile) f) := by
  unfold unpack_project
  simp only
  cases hm : MkdirAll cwd fs (destDir cwd zipFile) with
  | none => simp
  | some fs1 =>
    simp only
    rw [extractLoop_rejected cwd _ f post hbad pre fs1 []]
    by_cases hdone : (extractLoop cwd (destDir cwd zipFile) fs1 [] pre).exit = .done
    · simp [hdone]
    · simp [hdone]

/-- Witness for C6: `x/y.txt`, then `../evil.txt`, then `z`: the first entry
is extracted, the second stops the run, the third is not extracted. -/
theorem unpack_project_stops_at_invalid_witness :
    (unpack_project "/w".toList sampleFS "proj.zip".toList
      (some ([{ Name := "x/y.txt".toList, attrDir := false, data := .content [7] }] ++
        { Name := "../evil.txt".toList, attrDir := false, data := .content [6] } ::
        [{ Name := "z".toList, attrDir := false, data := .content [5] }]))).exit
      = .invalidPath ∧
    (unpack_project "/w".toList sampleFS "proj.zip".toList
      (some ([{ Name := "x/y.txt".toList, attrDir := false, data := .content [7] }] ++
        { Name := "../evil.txt".toList, attrDir := false, data := .content [6] } ::
        [{ Name := "z".toList, attrDir := false, data := .content [5] }]))).fs
      ["y.txt".toList, "x".toList, "proj".toList, "w".toList] = some (.file [7]) ∧
    (unpack_project "/w".toList sampleFS "proj.zip".toList
      (some ([{ Name := "x/y.txt".toList, attrDir := false, data := .content [7] }] ++
        { Name := "../evil.txt".toList, attrDir := false, data := .content [6] } ::
        [{ Name := "z".toList, attrDir := false, data := .content [5] }]))).fs
      ["z".toList, "proj".toList, "w".toList] = none := by
  obtain ⟨_, hfs, hexit⟩ := unpack_project_stops_at_invalid "/w".toList sampleFS
    "proj.zip".toList [{ Name := "x/y.txt".toList, attrDir := false, data := .content [7] }]
    [{ Name := "z".toList, attrDir := false, data := .content [5] }]
    { Name := "../evil.txt".toList, attrDir := false, data := .content [6] } (by decide)
  refine ⟨(hexit (by decide)).1, ?_, ?_⟩
  · rw [hfs]; decide
  · rw [hfs]; decide

/-! ## Lemmas: the round trip -/

theorem cleanStep_false_dotdot (stk : List GoString) (e : GoString)
    (h : ['.', '.'] ∈ stk) : ['.', '.'] ∈ cleanStep false stk e := by
  unfold cleanStep
  by_cases h1 : e = ['.']
  · simpa [h1] using h
  · by_cases h2 : e = ['.', '.']
    · cases stk with
      | nil => simp at h
      | cons top below =>
        by_cases ht : top = ['.', '.']
        · simp [h2, ht]
        · simp only [h2, if_neg ht]
          rcases List.mem_cons.mp h with h | h
          · exact absurd h.symm ht
          · simpa using h
    · simp only [h1, h2, if_false]
      exact List.mem_cons_of_mem _ h

theorem foldl_cleanStep_false_dotdot (elems : List GoString) :
    ∀ stk : List GoString, ['.', '.'] ∈ stk →
      ['.', '.'] ∈ elems.foldl (cleanStep false) stk := by
  induction elems with
  | nil => intro stk h; simpa using h
  | cons e es ih =>
    intro stk h
    rw [List.foldl_cons]
    exact ih _ (cleanStep_false_dotdot stk e h)

theorem cleanStep_true_append (stk base : List GoString) (e : GoString)
    (h : ['.', '.'] ∉ cleanStep false stk e) :
    cleanStep true (stk ++ base) e = cleanStep false stk e ++ base := by
  unfold cleanStep at h ⊢
  by_cases h1 : e = ['.']
  · simp [h1]
  · by_cases h2 : e = ['.', '.']
    · cases stk with
      | nil => simp [h1, h2] at h
      | cons top below =>
        by_cases ht : top = ['.', '.']
        · simp [h2, ht] at h
        · simp [h2, ht]
    · simp [h1, h2]

/-- Cleaning a path that stays inside, on top of a rooted key, puts its
relative key on top of that key. -/
theorem foldl_cleanStep_true_append (base : List GoString) (elems : List GoString) :
    ∀ stk : List GoString, ['.', '.'] ∉ elems.foldl (cleanStep false) stk →
      elems.foldl (cleanStep true) (stk ++ base) =
        elems.foldl (cleanStep false) stk ++ base := by
  induction elems with
  | nil => intro stk _; simp
  | cons e es ih =>
    intro stk h
    rw [List.foldl_cons] at h ⊢
    have hstep : ['.', '.'] ∉ cleanStep false stk e := fun hin =>
      h (foldl_cleanStep_false_dotdot es _ hin)
    rw [cleanStep_true_append stk base e hstep, ih _ h, List.foldl_cons]

theorem rootKey_Join_local (dest name : GoString) (hd : IsAbs dest = true)
    (hl : Local name) : rootKey (Join dest name) = relKey name ++ rootKey dest := by
  rw [rootKey_Join dest name hd]
  have := foldl_cleanStep_true_append (rootKey dest) (pathElems name) [] hl.2
  simpa [relKey] using this

theorem osKey_local (cwd name : GoString) (hn : IsAbs name = false) (hl : Local name) :
    osKey cwd name = relKey name ++ rootKey cwd := by
  unfold osKey
  rw [hn]
  have := foldl_cleanStep_true_append (rootKey cwd) (pathElems name) [] hl.2
  simpa [relKey, rootKey] using this

theorem Clean_of_rootKey_ne (p : GoString) (hp : IsAbs p = true) (hk : rootKey p ≠ []) :
    Clean p = joinElems (rootKey p).reverse := by
  rw [Clean_rooted p hp]
  have hk' : ¬ List.foldl (cleanStep true) [] (pathElems p) = [] := hk
  rw [if_neg hk']
  rfl

/-- A path that stays inside passes the guard of a destination that is not
the root. -/
theorem pathGuard_local (dest name : GoString) (hd : IsAbs dest = true)
    (hroot : rootKey dest ≠ []) (hl : Local name) :
    pathGuard dest (Join dest name) = true := by
  have hx : IsAbs (dest ++ '/' :: name) = true := IsAbs_append dest _ hd
  have hk := rootKey_Join_local dest name hd hl
  rw [Join_rooted dest name hd, rootKey_Clean _ hx] at hk
  unfold pathGuard HasPrefix
  rw [List.isPrefixOf_iff_prefix, Join_rooted dest name hd,
    Clean_of_rootKey_ne _ hx (by rw [hk]; simp [hl.1]), hk,
    Clean_of_rootKey_ne dest hd hroot, List.reverse_append, joinElems_append]
  obtain ⟨e, es, hes⟩ := List.exists_cons_of_ne_nil
    (show (relKey name).reverse ≠ [] by simpa using hl.1)
  rw [hes, joinElems_cons]
  exact ⟨e ++ joinElems es, by simp⟩

theorem endsWithSep_Join (dest name : GoString) (hd : IsAbs dest = true)
    (hk : rootKey (Join dest name) ≠ []) : endsWithSep (Join dest name) = false := by
  have hx : IsAbs (dest ++ '/' :: name) = true := IsAbs_append dest _ hd
  rw [Join_rooted dest name hd] at hk ⊢
  rw [rootKey_Clean _ hx] at hk
  exact endsWithSep_Clean _ hx hk

theorem Dir_Join (dest name : GoString) (hd : IsAbs dest = true) (n : GoString) (par : Key)
    (hk : rootKey (Join dest name) = n :: par) :
    IsAbs (Dir (Join dest name)) = true ∧ rootKey (Dir (Join dest name)) = par := by
  have hx : IsAbs (dest ++ '/' :: name) = true := IsAbs_append dest _ hd
  rw [Join_rooted dest name hd] at hk ⊢
  rw [rootKey_Clean _ hx] at hk
  exact Dir_Clean _ hx n par hk

theorem osStat_regular (cwd : GoString) (fs : FS) (p : GoString)
    (h : isRegular (osStat cwd fs p) = true) :
    fs.node (osKey cwd p) = some (.file (fileBytes cwd fs p)) ∧ endsWithSep p = false ∧
      osStat cwd fs p = some (.file (fileBytes cwd fs p)) := by
  unfold fileBytes
  unfold osStat at h ⊢
  cases hn : fs.node (osKey cwd p) with
  | none => simp [hn, isRegular] at h
  | some n =>
    cases n with
    | dir => simp [hn, isRegular] at h
    | file c =>
      simp only [hn] at h ⊢
      have hsep : endsWithSep p = false := by
        by_contra hne
        simp [hne, isRegular] at h
      simp [hsep]

theorem fileBytes_congr (cwd : GoString) (fs : FS) (p q : GoString)
    (hp : isRegular (osStat cwd fs p) = true) (hq : isRegular (osStat cwd fs q) = true)
    (hk : osKey cwd p = osKey cwd q) : fileBytes cwd fs p = fileBytes cwd fs q := by
  have h1 := (osStat_regular cwd fs p hp).1
  have h2 := (osStat_regular cwd fs q hq).1
  rw [hk, h2] at h1
  simpa using h1.symm

theorem mkdirAllKey_below (d : Key) (fs fs1 : FS) (h : mkdirAllKey fs d = some fs1) (a : Key)
    (ha : StrictlyBelow d a) : fs1 a = fs a := by
  by_contra hne
  obtain ⟨_, _, hsuf, _, _⟩ := mkdirAllKey_changes d fs fs1 h a hne
  exact ha.2 (List.IsSuffix.eq_of_length_le hsuf (ha.1.length_le))

theorem mkdirAllKey_unpacking (files : List GoString) (bytes : GoString → Bytes)
    (keyOf : GoString → Key) (d : Key) (fs0 : FS)
    (hclear : ∀ p ∈ files, ∀ (r a : Key), r ≠ [] → keyOf p = r ++ a → StrictlyBelow d a →
      isRegular (fs0 a) = false)
    (hclash : ∀ p ∈ files, ∀ q ∈ files, ∀ r : Key, keyOf p = r ++ keyOf q → r = [])
    (p : GoString) (hp : p ∈ files) :
    ∀ (x r : Key), r ≠ [] → keyOf p = r ++ (x ++ d) → ∀ fs : FS, fs.node d = some .dir →
      Unpacking files bytes keyOf fs0 fs →
      ∃ fs1, mkdirAllKey fs (x ++ d) = some fs1 ∧ fs1.node d = some .dir ∧
        Unpacking files bytes keyOf fs0 fs1 ∧
        fs1.node (x ++ d) = some .dir ∧ ∀ q, fs q ≠ none → fs1 q = fs q := by
  intro x
  induction x with
  | nil =>
    intro r _ _ fs hdir hinv
    refine ⟨fs, ?_, hdir, hinv, hdir, fun _ _ => rfl⟩
    show mkdirAllKey fs d = some fs
    cases d with
    | nil => simp [mkdirAllKey]
    | cons name parent =>
      have hnode : fs (name :: parent) = some .dir := by simpa [FS.node] using hdir
      simp [mkdirAllKey, hnode]
  | cons m x ih =>
    intro r hr hrel fs hdir hinv
    show ∃ fs1, mkdirAllKey fs (m :: (x ++ d)) = some fs1 ∧ _
    have hne : d ≠ m :: (x ++ d) := by
      intro e
      have := congrArg List.length e
      simp at this
      omega
    have hbelow : StrictlyBelow d (m :: (x ++ d)) :=
      ⟨⟨m :: x, rfl⟩, fun e => hne e.symm⟩
    cases hn : fs (m :: (x ++ d)) with
    | none =>
      obtain ⟨fs1, hm, hdir1, hinv1, hpar1, hkeep⟩ :=
        ih (r ++ [m]) (by simp) (by simp [hrel]) fs hdir hinv
      refine ⟨fs1.set (m :: (x ++ d)) .dir, ?_, ?_, ?_, ?_, ?_⟩
      · simp [mkdirAllKey, hn, hm]
      · rw [FS.node_set_of_ne _ _ _ _ hne]
        exact hdir1
      · intro a
        by_cases ha : a = m :: (x ++ d)
        · right; right
          refine ⟨by simp [FS.set, ha], p, hp, r, hr, ?_⟩
          rw [ha]; exact hrel
        · have hsame : (fs1.set (m :: (x ++ d)) .dir) a = fs1 a := by simp [FS.set, ha]
          rw [hsame]
          exact hinv1 a
      · simp [FS.node, FS.set]
      · intro q hq
        have hqk : q ≠ m :: (x ++ d) := fun e => hq (e ▸ hn)
        simp only [FS.set, hqk, if_false]
        exact hkeep q hq
    | some n =>
      cases n with
      | dir =>
        exact ⟨fs, by simp [mkdirAllKey, hn], hdir, hinv, by simp [FS.node, hn],
          fun _ _ => rfl⟩
      | file c =>
        exfalso
        rcases hinv (m :: (x ++ d)) with h0 | ⟨q, hq, hqk, _⟩ | ⟨hisdir, _⟩
        · have := hclear p hp r (m :: (x ++ d)) hr hrel hbelow
          rw [← h0, hn] at this
          simp [isRegular] at this
        · exact hr (hclash p hp q hq r (by rw [hqk]; exact hrel))
        · rw [hn] at hisdir
          simp at hisdir

/-- Extracting the entry of a tracked file that passes the guard and finds its
way clear: the loop goes on, the file is there with its bytes, and nothing
else that existed has changed. -/
theorem extractEntry_lands (cwd dest : GoString) (files : List GoString)
    (bytes : GoString → Bytes) (fs0 fs : FS) (p : GoString)
    (hd : IsAbs dest = true)
    (hnodir : ∀ p ∈ files, fs0 (destKey dest p) ≠ some .dir)
    (hclear : ∀ p ∈ files, ∀ (r a : Key), r ≠ [] → destKey dest p = r ++ a →
      StrictlyBelow (rootKey dest) a → isRegular (fs0 a) = false)
    (hclash : ∀ p ∈ files, ∀ q ∈ files, ∀ r : Key, destKey dest p = r ++ destKey dest q →
      r = [])
    (hp : p ∈ files) (hguard : pathGuard dest (Join dest p) = true)
    (hsep : endsWithSep p = false)
    (hdir : fs.node (rootKey dest) = some .dir)
    (hinv : Unpacking files bytes (destKey dest) fs0 fs) :
    ∃ fs1 lines, extractEntry cwd dest fs (entryOf bytes p) = (fs1, lines, none) ∧
      fs1.node (rootKey dest) = some .dir ∧
      Unpacking files bytes (destKey dest) fs0 fs1 ∧
      fs1 (destKey dest p) = some (.file (bytes p)) ∧
      ∀ q, q ≠ destKey dest p → fs q ≠ none → fs1 q = fs q := by
  obtain ⟨r, hr, hrk⟩ := pathGuard_key dest p hd hguard
  obtain ⟨n, x, rfl⟩ := List.exists_cons_of_ne_nil hr
  have hk : rootKey (Join dest p) = n :: (x ++ rootKey dest) := hrk
  have hK : destKey dest p = n :: (x ++ rootKey dest) := hrk
  have habs : IsAbs (Join dest p) = true := IsAbs_Join dest p hd
  have hkey : osKey cwd (Join dest p) = n :: (x ++ rootKey dest) := by
    rw [osKey_rooted cwd _ habs, hk]
  obtain ⟨hdabs, hdkey⟩ := Dir_Join dest p hd n _ hk
  have hends : endsWithSep (Join dest p) = false :=
    endsWithSep_Join dest p hd (by rw [hk]; simp)
  obtain ⟨fs1, hm, hdir1, hinv1, hpar1, hkeep1⟩ :=
    mkdirAllKey_unpacking files bytes (destKey dest) (rootKey dest) fs0 hclear hclash p hp x [n]
      (by simp) hK fs hdir hinv
  have hdne : rootKey dest ≠ n :: (x ++ rootKey dest) := by
    intro e
    have := congrArg List.length e
    simp at this
    omega
  -- the file system once the file is written
  have hfinal : Unpacking files bytes (destKey dest) fs0
      ((fs1.set (n :: (x ++ rootKey dest)) (.file [])).set (n :: (x ++ rootKey dest))
        (.file (bytes p))) := by
    intro a
    by_cases ha : a = n :: (x ++ rootKey dest)
    · right; left
      exact ⟨p, hp, by rw [hK, ha], by simp [FS.set, ha]⟩
    · have hsame : ((fs1.set (n :: (x ++ rootKey dest)) (.file [])).set
          (n :: (x ++ rootKey dest)) (.file (bytes p))) a = fs1 a := by
        simp [FS.set, ha]
      rw [hsame]
      exact hinv1 a
  have hopen : OpenFileTrunc cwd fs1 (Join dest p) =
      some (fs1.set (n :: (x ++ rootKey dest)) (.file [])) := by
    unfold OpenFileTrunc
    rw [hkey]
    simp only [hends, Bool.false_eq_true, if_false]
    cases hn : fs1 (n :: (x ++ rootKey dest)) with
    | none => simp [hpar1]
    | some nd =>
      cases nd with
      | file c => simp
      | dir =>
        exfalso
        rcases hinv1 (n :: (x ++ rootKey dest)) with h0 | ⟨q, _, _, hfile⟩ | ⟨_, q, hq, r, hr, hrel⟩
        · apply hnodir p hp
          rw [hK, ← h0, hn]
        · rw [hn] at hfile
          simp at hfile
        · exact hr (hclash q hq p hp r (by rw [hK]; exact hrel))
  refine ⟨_, ["unzipping file  ".toList ++ Join dest p], ?_, ?_, hfinal, ?_, ?_⟩
  · unfold extractEntry
    simp only [hguard, Bool.not_true, Bool.false_eq_true, if_false, ZipEntry.IsDir, entryOf,
      hsep, Bool.or_self]
    unfold MkdirAll
    rw [osKey_rooted cwd _ hdabs, hdkey, hm]
    simp only [hopen, hkey]
  · rw [FS.node_set_of_ne _ _ _ _ hdne, FS.node_set_of_ne _ _ _ _ hdne]
    exact hdir1
  · rw [hK]; simp [FS.set]
  · intro q hq hne
    rw [hK] at hq
    simp only [FS.set, hq, if_false]
    exact hkeep1 q hne

theorem extractLoop_lands (cwd dest : GoString) (files : List GoString)
    (bytes : GoString → Bytes) (fs0 : FS) (hd : IsAbs dest = true)
    (hnodir : ∀ p ∈ files, fs0 (destKey dest p) ≠ some .dir)
    (hclear : ∀ p ∈ files, ∀ (r a : Key), r ≠ [] → destKey dest p = r ++ a →
      StrictlyBelow (rootKey dest) a → isRegular (fs0 a) = false)
    (hclash : ∀ p ∈ files, ∀ q ∈ files, ∀ r : Key, destKey dest p = r ++ destKey dest q →
      r = [])
    (hsame : ∀ p ∈ files, ∀ q ∈ files, destKey dest p = destKey dest q → bytes p = bytes q)
    (todo : List GoString) :
    (∀ p ∈ todo, p ∈ files ∧ pathGuard dest (Join dest p) = true ∧ endsWithSep p = false) →
    ∀ (fs : FS) (out : List GoString), fs.node (rootKey dest) = some .dir →
      Unpacking files bytes (destKey dest) fs0 fs →
      (extractLoop cwd dest fs out (todo.map (entryOf bytes))).exit = .done ∧
      (∀ p ∈ todo, (extractLoop cwd dest fs out (todo.map (entryOf bytes))).fs
          (destKey dest p) = some (.file (bytes p))) ∧
      (∀ p ∈ files, fs (destKey dest p) = some (.file (bytes p)) →
        (extractLoop cwd dest fs out (todo.map (entryOf bytes))).fs
          (destKey dest p) = some (.file (bytes p))) := by
  induction todo with
  | nil =>
    intro _ fs out _ _
    exact ⟨rfl, by simp, fun _ _ h => h⟩
  | cons p rest ih =>
    intro htodo fs out hdir hinv
    obtain ⟨hpf, hg, hsep⟩ := htodo p (by simp)
    obtain ⟨fs1, lines, hstep, hdir1, hinv1, hthere, hkeep⟩ :=
      extractEntry_lands cwd dest files bytes fs0 fs p hd hnodir hclear hclash hpf hg hsep
        hdir hinv
    have hrest := ih (fun q hq => htodo q (List.mem_cons_of_mem _ hq)) fs1 (out ++ lines)
      hdir1 hinv1
    have hloop : extractLoop cwd dest fs out ((p :: rest).map (entryOf bytes)) =
        extractLoop cwd dest fs1 (out ++ lines) (rest.map (entryOf bytes)) := by
      rw [List.map_cons]
      conv_lhs => unfold extractLoop
      rw [hstep]
    rw [hloop]
    obtain ⟨h1, h2, h3⟩ := hrest
    refine ⟨h1, ?_, ?_⟩
    · intro q hq
      rcases List.mem_cons.mp hq with rfl | hq
      · exact h3 q hpf hthere
      · exact h2 q hq
    · intro q hq hfile
      apply h3 q hq
      by_cases hk : destKey dest q = destKey dest p
      · rw [hk, hsame q hq p hpf hk]
        exact hthere
      · rw [hkeep _ hk (by rw [hfile]; simp)]
        exact hfile

/-- What unpacking the archive of tracked files gives, in closed form. -/
theorem round_trip_lands (cwd1 : GoString) (fs1 : FS) (files : List GoString)
    (cwd2 : GoString) (fs2 : FS) (zipFile : GoString)
    (hcwd2 : IsAbs cwd2 = true)
    (hread : ∀ p ∈ files, isRegular (osStat cwd1 fs1 p) = true)
    (hguard : ∀ p ∈ files,
      pathGuard (destDir cwd2 zipFile) (Join (destDir cwd2 zipFile) p) = true)
    (hmk : (MkdirAll cwd2 fs2 (destDir cwd2 zipFile)).isSome = true)
    (hclear : ∀ p ∈ files, ClearWay fs2 (osKey cwd2 (destDir cwd2 zipFile))
      (landingKey cwd2 (destDir cwd2 zipFile) p))
    (hclash : NoClash (landingKey cwd2 (destDir cwd2 zipFile)) (fileBytes cwd1 fs1) files) :
    (unpack_project cwd2 fs2 zipFile (some (files.map (fileEntry cwd1 fs1)))).exit = .done ∧
    ∀ p ∈ files,
      osStat cwd2 (unpack_project cwd2 fs2 zipFile (some (files.map (fileEntry cwd1 fs1)))).fs
        (Join (destDir cwd2 zipFile) p) = some (.file (fileBytes cwd1 fs1 p)) := by
  have hd : IsAbs (destDir cwd2 zipFile) = true := IsAbs_destDir cwd2 zipFile hcwd2
  have hland : ∀ p, landingKey cwd2 (destDir cwd2 zipFile) p = destKey (destDir cwd2 zipFile) p :=
    fun p => osKey_rooted cwd2 _ (IsAbs_Join _ p hd)
  rw [osKey_rooted cwd2 _ hd] at hclear
  obtain ⟨fsA, hA⟩ := Option.isSome_iff_exists.mp hmk
  have hA' : mkdirAllKey fs2 (rootKey (destDir cwd2 zipFile)) = some fsA := by
    unfold MkdirAll at hA
    rw [osKey_rooted cwd2 _ hd] at hA
    exact hA
  have hbelowP : ∀ p ∈ files,
      StrictlyBelow (rootKey (destDir cwd2 zipFile)) (destKey (destDir cwd2 zipFile) p) := by
    intro p hp
    obtain ⟨r, hr, hrk⟩ := pathGuard_key _ p hd (hguard p hp)
    refine ⟨⟨r, hrk.symm⟩, ?_⟩
    intro e
    have h : (destKey (destDir cwd2 zipFile) p).length =
        r.length + (rootKey (destDir cwd2 zipFile)).length := by
      unfold destKey
      rw [hrk]; simp
    rw [e] at h
    have : r.length = 0 := by omega
    exact hr (List.length_eq_zero.mp this)
  have hnodir : ∀ p ∈ files, fsA (destKey (destDir cwd2 zipFile) p) ≠ some .dir := by
    intro p hp
    rw [mkdirAllKey_below _ fs2 fsA hA' _ (hbelowP p hp), ← hland p]
    exact (hclear p hp).1
  have hclear0 : ∀ p ∈ files, ∀ (r a : Key), r ≠ [] →
      destKey (destDir cwd2 zipFile) p = r ++ a →
      StrictlyBelow (rootKey (destDir cwd2 zipFile)) a → isRegular (fsA a) = false := by
    intro p hp r a hr hra hbelow
    rw [mkdirAllKey_below _ fs2 fsA hA' a hbelow]
    apply (hclear p hp).2 a
    · rw [hland p, List.mem_tails]
      exact ⟨r, hra.symm⟩
    · exact hbelow.1
    · exact hbelow.2
    · intro e
      rw [hland p, hra] at e
      have := congrArg List.length e
      simp at this
      exact hr this
  have hclash1 : ∀ p ∈ files, ∀ q ∈ files, ∀ r : Key,
      destKey (destDir cwd2 zipFile) p = r ++ destKey (destDir cwd2 zipFile) q → r = [] := by
    intro p hp q hq r hrel
    have := (hclash p hp q hq (by rw [hland p, hland q]; exact ⟨r, hrel.symm⟩)).1
    rw [hland p, hland q, hrel] at this
    have := congrArg List.length this
    simp at this
    exact this
  have hsame : ∀ p ∈ files, ∀ q ∈ files,
      destKey (destDir cwd2 zipFile) p = destKey (destDir cwd2 zipFile) q →
      fileBytes cwd1 fs1 p = fileBytes cwd1 fs1 q := by
    intro p hp q hq hk
    exact (hclash p hp q hq (by rw [hland p, hland q, hk])).2.symm
  have hloop := extractLoop_lands cwd2 (destDir cwd2 zipFile) files (fileBytes cwd1 fs1) fsA hd
    hnodir hclear0 hclash1 hsame files
    (fun p hp => ⟨hp, hguard p hp, (osStat_regular cwd1 fs1 p (hread p hp)).2.1⟩) fsA []
    (mkdirAllKey_dir _ fs2 fsA hA') (fun _ => Or.inl rfl)
  have hun : unpack_project cwd2 fs2 zipFile (some (files.map (fileEntry cwd1 fs1))) =
      extractLoop cwd2 (destDir cwd2 zipFile) fsA []
        (files.map (entryOf (fileBytes cwd1 fs1))) := by
    unfold unpack_project
    simp only [hA]
    rfl
  rw [hun]
  refine ⟨hloop.1, ?_⟩
  intro p hp
  have hfile := hloop.2.1 p hp
  have hne : rootKey (Join (destDir cwd2 zipFile) p) ≠ [] := by
    intro e
    have := (hbelowP p hp).1.length_le
    unfold destKey at this
    rw [e] at this
    have h0 : rootKey (destDir cwd2 zipFile) = [] := List.length_eq_zero.mp (by simpa using this)
    exact (hbelowP p hp).2 (by unfold destKey; rw [e, h0])
  unfold osStat
  rw [osKey_rooted cwd2 _ (IsAbs_Join _ p hd), endsWithSep_Join _ p hd hne]
  have hnode : FS.node (extractLoop cwd2 (destDir cwd2 zipFile) fsA []
      (files.map (entryOf (fileBytes cwd1 fs1)))).fs (rootKey (Join (destDir cwd2 zipFile) p)) =
      some (.file (fileBytes cwd1 fs1 p)) := by
    unfold FS.node
    rw [if_neg hne]
    exact hfile
  rw [hnode]
  simp

/-- Why the round trip asks for a clear way.  With a directory already at
`/w/proj/a.txt`, the entry `a.txt` cannot be opened for writing; with a
regular file at `/w/proj/d`, the directory for the entry `d/x.txt` cannot be
made.  Either way `unpack_project` panics. -/
theorem unpack_project_blocked_way :
    (unpack_project "/w".toList
      (sampleTree.set ["a.txt".toList, "proj".toList, "w".toList] .dir) "proj.zip".toList
      (some (pack_project "/w".toList sampleTree
        (sampleProject ["a.txt".toList])).entries)).exit = .panicked ∧
    (unpack_project "/w".toList
      (sampleTree.set ["d".toList, "proj".toList, "w".toList] (.file [50])) "proj.zip".toList
      (some [{ Name := "d/x.txt".toList, attrDir := false, data := .content [49] }])).exit =
      .panicked := by
  decide

/-- Why the round trip asks that tracked paths do not clash.  With
`/proj/a.txt` holding other bytes than `/w/a.txt`, the tracked paths `a.txt`
and `../proj/a.txt` both pass the guard and both land on `/w/proj/a.txt`: the
second entry overwrites the first, whose bytes are lost.  And an entry that
lands inside the place of an earlier one, as `a.txt/x` after `a.txt`, finds a
regular file where it needs a directory. -/
theorem unpack_project_clash :
    pathGuard (destDir "/w".toList "proj.zip".toList)
      (Join (destDir "/w".toList "proj.zip".toList) "../proj/a.txt".toList) = true ∧
    fileBytes "/w".toList (sampleTree.set ["a.txt".toList, "proj".toList] (.file [55]))
      "a.txt".toList = [104, 105] ∧
    (unpack_project "/w".toList
      (sampleTree.set ["a.txt".toList, "proj".toList] (.file [55])) "proj.zip".toList
      (some (pack_project "/w".toList
        (sampleTree.set ["a.txt".toList, "proj".toList] (.file [55]))
        (sampleProject ["a.txt".toList, "../proj/a.txt".toList])).entries)).exit = .done ∧
    osStat "/w".toList
      (unpack_project "/w".toList
        (sampleTree.set ["a.txt".toList, "proj".toList] (.file [55])) "proj.zip".toList
        (some (pack_project "/w".toList
          (sampleTree.set ["a.txt".toList, "proj".toList] (.file [55]))
          (sampleProject ["a.txt".toList, "../proj/a.txt".toList])).entries)).fs
      "/w/proj/a.txt".toList = some (.file [55]) ∧
    (unpack_project "/w".toList sampleTree "proj.zip".toList
      (some [{ Name := "a.txt".toList, attrDir := false, data := .content [104, 105] },
             { Name := "a.txt/x".toList, attrDir := false, data := .content [49] }])).exit =
      .panicked := by
  decide

/-! ## Theorems: the round trip -/

/-- C7, as the code has it.  A tracked path `../a.txt` names an existing file
next to the working directory `/w/sub`; `pack_project` stores it under that
name, and `unpack_project` rejects the entry, so no file appears at the same
relative path under the destination directory. -/
theorem round_trip_fails_for_escaping_path :
    IsAbs "../a.txt".toList = false ∧
    osStat "/w/sub".toList sampleFS "../a.txt".toList = some (.file [104, 105]) ∧
    pack_project "/w/sub".toList sampleFS (sampleProject ["../a.txt".toList]) =
      { entries := [{ Name := "../a.txt".toList, attrDir := false,
                      data := .content [104, 105] }],
        exit := .done } ∧
    (unpack_project "/w/sub".toList sampleFS "proj.zip".toList
      (some (pack_project "/w/sub".toList sampleFS
        (sampleProject ["../a.txt".toList])).entries)).exit = .invalidPath ∧
    osStat "/w/sub".toList
      (unpack_project "/w/sub".toList sampleFS "proj.zip".toList
        (some (pack_project "/w/sub".toList sampleFS
          (sampleProject ["../a.txt".toList])).entries)).fs
      (Join (destDir "/w/sub".toList "proj.zip".toList) "../a.txt".toList) = none := by
  decide

/-- C7, amended.  Take tracked paths that name regular files, none of them the
archive under construction, each of which passes the guard of
`unpack_project`: joined to the destination directory, it stays under that
directory.  Let the destination directory be one that can be made, with
nothing in the way of the files (no directory where a file goes, no regular
file where a directory is needed; files already there are overwritten), and
let no two tracked paths clash (none lands above another, and two that land
on the same place hold the same bytes).  Then packing with `pack_project` and
unpacking the archive with `unpack_project` ends normally both times and
leaves, under the destination directory, a regular file at each of the same
relative paths, with the bytes of the packed file.  None of the conditions
can be dropped: `unpack_project_blocked_way` and `unpack_project_clash` show
the runs that go wrong without them. -/
theorem pack_unpack_round_trip(cwd1 : GoString) (fs1 : FS) (tomlData : projectConfig)
    (cwd2 : GoString) (fs2 : FS) (zipFile : GoString)
    (hcwd1 : IsAbs cwd1 = true) (hcwd2 : IsAbs cwd2 = true)
    (hcreate : (packSnapshot cwd1 fs1 tomlData).isSome = true)
    (hself : ∀ p ∈ tomlData.ProjFiles, osKey cwd1 p ≠ osKey cwd1 (archiveName tomlData))
    (hread : ∀ p ∈ tomlData.ProjFiles, isRegular (osStat cwd1 fs1 p) = true)
    (hguard : ∀ p ∈ tomlData.ProjFiles,
      pathGuard (destDir cwd2 zipFile) (Join (destDir cwd2 zipFile) p) = true)
    (hmk : (MkdirAll cwd2 fs2 (destDir cwd2 zipFile)).isSome = true)
    (hclear : ∀ p ∈ tomlData.ProjFiles, ClearWay fs2 (osKey cwd2 (destDir cwd2 zipFile))
      (landingKey cwd2 (destDir cwd2 zipFile) p))
    (hclash : NoClash (landingKey cwd2 (destDir cwd2 zipFile)) (fileBytes cwd1 fs1)
      tomlData.ProjFiles) :
    (pack_project cwd1 fs1 tomlData).exit = .done ∧
    (unpack_project cwd2 fs2 zipFile
      (some (pack_project cwd1 fs1 tomlData).entries)).exit = .done ∧
    ∀ p ∈ tomlData.ProjFiles,
      osStat cwd1 fs1 p = some (.file (fileBytes cwd1 fs1 p)) ∧
      osStat cwd2
        (unpack_project cwd2 fs2 zipFile (some (pack_project cwd1 fs1 tomlData).entries)).fs
        (Join (destDir cwd2 zipFile) p) = some (.file (fileBytes cwd1 fs1 p)) := by
  rw [pack_project_done cwd1 fs1 tomlData hcwd1 hcreate hself hread]
  obtain ⟨h1, h2⟩ := round_trip_lands cwd1 fs1 tomlData.ProjFiles cwd2 fs2 zipFile hcwd2
    hread hguard hmk hclear hclash
  exact ⟨rfl, h1, fun p hp => ⟨(osStat_regular cwd1 fs1 p (hread p hp)).2.2, h2 p hp⟩⟩

/-- Witness for C7: `a.txt` and `../proj/c.txt` packed in `/w` and unpacked
there from `proj.zip`, into the directory `/w/proj` that already holds an
older `a.txt`.  Afterwards `/w/proj/a.txt` holds the bytes of `/w/a.txt` and
`/w/proj/c.txt` those of `/proj/c.txt`. -/
theorem pack_unpack_round_trip_witness :
    osStat "/w".toList sampleTree "/w/proj/a.txt".toList = some (.file [111, 108, 100]) ∧
    osStat "/w".toList
      (unpack_project "/w".toList sampleTree "proj.zip".toList
        (some (pack_project "/w".toList sampleTree
          (sampleProject ["a.txt".toList, "../proj/c.txt".toList])).entries)).fs
      "/w/proj/a.txt".toList = some (.file [104, 105]) ∧
    osStat "/w".toList
      (unpack_project "/w".toList sampleTree "proj.zip".toList
        (some (pack_project "/w".toList sampleTree
          (sampleProject ["a.txt".toList, "../proj/c.txt".toList])).entries)).fs
      "/w/proj/c.txt".toList = some (.file [99]) := by
  have h := (pack_unpack_round_trip "/w".toList sampleTree
    (sampleProject ["a.txt".toList, "../proj/c.txt".toList]) "/w".toList sampleTree
    "proj.zip".toList
    (by decide) (by decide) (by decide) (by decide) (by decide) (by decide) (by decide)
    (by decide) (by decide)).2.2
  exact ⟨by decide, (h "a.txt".toList (by decide)).2, (h "../proj/c.txt".toList (by decide)).2⟩

/-! ## Theorems: the deadline step -/

/-- What `test_project` returns when the deadline step does not panic: the
deadline report comes first, and the verdict, the passes and the other
reports are those of `afterDeadline`, which does not read `DueDate`. -/
theorem test_project_ok (lower : GoString → GoString) (parse : GoString → Option Int)
    (now : Int) (sep : GoString) (tomlData : projectConfig) (res : SelectResult)
    (hdue : DeadlineOk parse tomlData.DueDate) :
    ∃ due, deadlineCheck parse now tomlData.DueDate = .ok due ∧
      test_project lower parse now sep tomlData res =
        .ok { verdict := (afterDeadline lower sep tomlData res).verdict,
              currentPasses := (afterDeadline lower sep tomlData res).currentPasses,
              reports := due :: (afterDeadline lower sep tomlData res).reports } := by
  obtain ⟨due, hd, _⟩ := deadlineCheck_ok parse now tomlData.DueDate hdue
  refine ⟨due, hd, ?_⟩
  cases res with
  | timerFired => simp only [test_project, hd, afterDeadline]
  | received out err =>
    cases err with
    | some e => simp only [test_project, hd, afterDeadline]
    | none =>
      simp only [test_project, hd, afterDeadline, executionPass, compareLoop_eq]
      simp

/-- C12. The deadline step of `test_project` panics exactly when `DueDate` is
neither `not_set` nor `no due date` and `time.Parse` rejects it, and then
`test_project` panics whatever the run gives.  For the two sentinels the step
reports a pass whatever `time.Parse` would answer, so the parse is never
consulted. -/
theorem deadlineCheck_error_iff (lower : GoString → GoString) (parse : GoString → Option Int)
    (now : Int) (sep : GoString) (tomlData : projectConfig) (res : SelectResult) :
    ((∃ e, deadlineCheck parse now tomlData.DueDate = .error e) ↔
      (tomlData.DueDate ≠ "not_set".toList ∧ tomlData.DueDate ≠ "no due date".toList ∧
        parse tomlData.DueDate = none)) ∧
    ((∃ e, test_project lower parse now sep tomlData res = .error e) ↔
      (tomlData.DueDate ≠ "not_set".toList ∧ tomlData.DueDate ≠ "no due date".toList ∧
        parse tomlData.DueDate = none)) ∧
    (∀ parse1 : GoString → Option Int,
      deadlineCheck parse1 now "not_set".toList = .ok (.onTime true) ∧
      deadlineCheck parse1 now "no due date".toList = .ok (.onTime true)) := by
  have hstep : (∃ e, deadlineCheck parse now tomlData.DueDate = .error e) ↔
      (tomlData.DueDate ≠ "not_set".toList ∧ tomlData.DueDate ≠ "no due date".toList ∧
        parse tomlData.DueDate = none) := by
    unfold deadlineCheck isOnTime
    by_cases hs : tomlData.DueDate = "not_set".toList ∨ tomlData.DueDate = "no due date".toList
    · rw [if_pos hs]
      constructor
      · rintro ⟨e, he⟩; cases he
      · rintro ⟨h1, h2, _⟩
        rcases hs with h | h
        · exact absurd h h1
        · exact absurd h h2
    · rw [if_neg hs]
      have h1 : tomlData.DueDate ≠ "not_set".toList := fun h => hs (Or.inl h)
      have h2 : tomlData.DueDate ≠ "no due date".toList := fun h => hs (Or.inr h)
      cases hp : parse tomlData.DueDate with
      | none => exact ⟨fun _ => ⟨h1, h2, rfl⟩, fun _ => ⟨_, rfl⟩⟩
      | some t =>
        constructor
        · rintro ⟨e, he⟩
          by_cases hlt : now < t <;> simp [hlt] at he
        · rintro ⟨_, _, h⟩; cases h
  refine ⟨hstep, ?_, ?_⟩
  · rw [← hstep]
    unfold test_project
    cases hd : deadlineCheck parse now tomlData.DueDate with
    | error e => exact ⟨fun _ => ⟨e, rfl⟩, fun _ => ⟨e, rfl⟩⟩
    | ok due =>
      constructor
      · rintro ⟨e, he⟩
        cases res with
        | timerFired => simp at he
        | received out err => cases err <;> simp at he
      · rintro ⟨e, he⟩; cases he
  · intro parse1
    exact ⟨by simp [deadlineCheck], by simp [deadlineCheck]⟩

/-- C13. Two descriptors that differ only in `DueDate`, each due date a
sentinel or a date that parses, give the same verdict (and the same pass
count) on the same outcome of the run: the deadline check only adds its
report. -/
theorem test_project_verdict_ignores_due (lower : GoString → GoString)
    (parse : GoString → Option Int) (now : Int) (sep : GoString)
    (a b : projectConfig) (res : SelectResult)
    (hab : SameButDueDate a b)
    (ha : DeadlineOk parse a.DueDate) (hb : DeadlineOk parse b.DueDate) :
    ∃ runA runB,
      test_project lower parse now sep a res = .ok runA ∧
      test_project lower parse now sep b res = .ok runB ∧
      runA.verdict = runB.verdict ∧ runA.currentPasses = runB.currentPasses ∧
      runA.reports.tail = runB.reports.tail := by
  obtain ⟨dueA, _, hA⟩ := test_project_ok lower parse now sep a res ha
  obtain ⟨dueB, _, hB⟩ := test_project_ok lower parse now sep b res hb
  have hsame : afterDeadline lower sep b res = afterDeadline lower sep a res := by
    unfold SameButDueDate at hab
    rw [hab]
    cases res with
    | timerFired => rfl
    | received out err => cases err <;> rfl
  rw [hsame] at hB
  exact ⟨_, _, hA, hB, rfl, rfl, rfl⟩

/-- C14. Once `DueDate` is anything but `not_set`, `fSetDue` panics for every
argument and leaves the descriptor, `DueDate` included, as it was. -/
theorem fSetDue_locked (env : SysEnv) (loc : Int → Int) (now1 now2 now3 : Int)
    (tomlData : projectConfig) (tomlFile : GoString) (setDue : Int)
    (hset : tomlData.DueDate ≠ "not_set".toList) :
    (fSetDue env loc now1 now2 now3 tomlData tomlFile setDue).panicked = true ∧
    (fSetDue env loc now1 now2 now3 tomlData tomlFile setDue).tomlData = tomlData ∧
    (fSetDue env loc now1 now2 now3 tomlData tomlFile setDue).tomlData.DueDate =
      tomlData.DueDate := by
  unfold fSetDue
  rw [if_pos hset]
  exact ⟨rfl, rfl, rfl⟩

/-! ## Lemmas: time -/

theorem digitChar_isDigit (k : Nat) (hk : k < 10) : (digitChar k).isDigit = true := by
  unfold digitChar
  interval_cases k <;> rfl

theorem digitVal_digitChar (k : Nat) (hk : k < 10) : digitVal (digitChar k) = k := by
  unfold digitChar digitVal
  interval_cases k <;> rfl

theorem digitChar_ne_space (k : Nat) (hk : k < 10) : digitChar k ≠ ' ' := by
  unfold digitChar
  interval_cases k <;> decide

theorem getnum_pad2 (n : Nat) (hn : n < 100) (isFixed : Bool) (rest : GoString) :
    getnum (pad2 n ++ rest) isFixed = some (n, rest) := by
  have h1 : n / 10 % 10 < 10 := Nat.mod_lt _ (by decide)
  have h2 : n % 10 < 10 := Nat.mod_lt _ (by decide)
  simp only [pad2, List.cons_append, List.nil_append, getnum, digitChar_isDigit _ h1,
    digitChar_isDigit _ h2, digitVal_digitChar _ h1, digitVal_digitChar _ h2, Bool.not_true,
    Bool.false_eq_true, if_false]
  congr 2
  omega

theorem getYear_pad4 (n : Nat) (hn : n < 10000) (rest : GoString) :
    getYear (pad4 n ++ rest) = some (n, rest) := by
  have h0 : n / 1000 < 10 := by omega
  have h1 : n / 100 % 10 < 10 := Nat.mod_lt _ (by decide)
  have h2 : n / 10 % 10 < 10 := Nat.mod_lt _ (by decide)
  have h3 : n % 10 < 10 := Nat.mod_lt _ (by decide)
  simp only [pad4, if_pos hn, List.cons_append, List.nil_append, getYear,
    digitChar_isDigit _ h0, digitChar_isDigit _ h1, digitChar_isDigit _ h2,
    digitChar_isDigit _ h3, digitVal_digitChar _ h0, digitVal_digitChar _ h1,
    digitVal_digitChar _ h2, digitVal_digitChar _ h3, and_self, if_true]
  congr 2
  omega

theorem skipSpaces_pad2 (n : Nat) (rest : GoString) :
    skipSpaces (' ' :: (pad2 n ++ rest)) = some (pad2 n ++ rest) := by
  have h1 : n / 10 % 10 < 10 := Nat.mod_lt _ (by decide)
  simp [skipSpaces, pad2, List.dropWhile, digitChar_ne_space _ h1]

/-- Reading back what the layout writes: `time.Parse` gives the instant the
civil time denotes in UTC. -/
theorem timeParse_formatCivil (c : Civil) (hc : ValidCivil c) :
    timeParse (formatCivil c) = some (civilInstant c) := by
  obtain ⟨hy0, hy1, hm0, hm1, hd0, hd1, hh0, hh1, hmi0, hmi1, hs0, hs1⟩ := hc
  obtain ⟨y, m, d, h, mi, s⟩ := c
  simp only at hy0 hy1 hm0 hm1 hd0 hd1 hh0 hh1 hmi0 hmi1 hs0 hs1
  obtain ⟨yn, rfl⟩ := Int.eq_ofNat_of_zero_le hy0
  obtain ⟨mn, rfl⟩ := Int.eq_ofNat_of_zero_le (show (0 : Int) ≤ m by omega)
  obtain ⟨dn, rfl⟩ := Int.eq_ofNat_of_zero_le (show (0 : Int) ≤ d by omega)
  obtain ⟨hn, rfl⟩ := Int.eq_ofNat_of_zero_le hh0
  obtain ⟨min, rfl⟩ := Int.eq_ofNat_of_zero_le hmi0
  obtain ⟨sn, rfl⟩ := Int.eq_ofNat_of_zero_le hs0
  have hd100 : dn < 100 := by
    have : daysIn (↑mn) (↑yn) ≤ 31 := by
      unfold daysIn
      split_ifs <;> omega
    omega
  have hfmt : formatCivil ⟨↑yn, ↑mn, ↑dn, ↑hn, ↑min, ↑sn⟩ =
      pad4 yn ++ ('-' :: (pad2 mn ++ ('-' :: (pad2 dn ++ (' ' :: (pad2 hn ++
        (':' :: (pad2 min ++ (':' :: (pad2 sn ++ [])))))))))) := by
    simp [formatCivil, formatYear]
  rw [hfmt]
  unfold timeParse
  rw [getYear_pad4 yn (by omega)]
  simp only [skipChar, if_true]
  rw [getnum_pad2 mn (by omega)]
  simp only
  rw [if_neg (by omega)]
  simp only [if_true]
  rw [getnum_pad2 dn hd100]
  simp only
  rw [skipSpaces_pad2]
  simp only
  rw [getnum_pad2 hn (by omega)]
  simp only
  rw [if_neg (by omega)]
  simp only [if_true]
  rw [getnum_pad2 min (by omega)]
  simp only
  rw [if_neg (by omega)]
  simp only [if_true]
  rw [getnum_pad2 sn (by omega)]
  simp only
  rw [if_neg (by omega)]
  simp only [getFraction, ne_eq, not_true_eq_false, if_false]
  rw [if_neg (by omega)]
  simp [civilInstant]

/-! ## Theorems: due dates -/

/-- C11. For a due date written in the layout `2006-01-02 15:04:05` (a real
date with a four-digit year), `isOnTime` returns, and it returns `true`
exactly when the current instant is strictly before the instant the string
denotes read in UTC, which is how `time.Parse` reads it: `false` at the
deadline and after it, `true` before it. -/
theorem isOnTime_iff_before (now : Int) (c : Civil) (hc : ValidCivil c) :
    isOnTime timeParse now (formatCivil c) = .ok (decide (now < civilInstant c)) ∧
    (civilInstant c ≤ now → isOnTime timeParse now (formatCivil c) = .ok false) ∧
    (now < civilInstant c → isOnTime timeParse now (formatCivil c) = .ok true) := by
  have h : isOnTime timeParse now (formatCivil c) = .ok (decide (now < civilInstant c)) := by
    unfold isOnTime
    rw [timeParse_formatCivil c hc]
  refine ⟨h, ?_, ?_⟩
  · intro hle
    rw [h]
    simp [not_lt.mpr hle]
  · intro hlt
    rw [h]
    simp [hlt]

/-- Witness for C11: the due date `2024-01-16 03:59:59`, seen on
2024-01-15 17:00:00 UTC (on time) and at the deadline itself (not on
time). -/
theorem isOnTime_iff_before_witness :
    formatCivil ⟨2024, 1, 16, 3, 59, 59⟩ = "2024-01-16 03:59:59".toList ∧
    isOnTime timeParse sampleNow "2024-01-16 03:59:59".toList = .ok true ∧
    isOnTime timeParse (dateUTC 2024 1 16 3 59 59) "2024-01-16 03:59:59".toList = .ok false :=
  ⟨by decide,
   (isOnTime_iff_before sampleNow ⟨2024, 1, 16, 3, 59, 59⟩ (by decide)).2.2 (by decide),
   (isOnTime_iff_before (dateUTC 2024 1 16 3 59 59) ⟨2024, 1, 16, 3, 59, 59⟩ (by decide)).2.1
     (by decide)⟩

/-- Witness for C13: the same completed run under `not_set` and under a due
date in the past. -/
theorem test_project_verdict_ignores_due_witness :
    ∃ runA runB,
      test_project asciiLower timeParse sampleNow (lineBreak false)
        (sampleConfig ["hello".toList, "world".toList] 2 false)
        (Completed "hello\nworld".toList) = .ok runA ∧
      test_project asciiLower timeParse sampleNow (lineBreak false)
        { sampleConfig ["hello".toList, "world".toList] 2 false with
            DueDate := "2020-01-01 00:00:00".toList }
        (Completed "hello\nworld".toList) = .ok runB ∧
      runA.verdict = runB.verdict ∧ runA.currentPasses = runB.currentPasses ∧
      runA.reports.tail = runB.reports.tail :=
  test_project_verdict_ignores_due asciiLower timeParse sampleNow (lineBreak false)
    (sampleConfig ["hello".toList, "world".toList] 2 false)
    { sampleConfig ["hello".toList, "world".toList] 2 false with
        DueDate := "2020-01-01 00:00:00".toList }
    (Completed "hello\nworld".toList) rfl (Or.inl rfl) (Or.inr (Or.inr (by decide)))

/-- Witness for C14: a descriptor due on `2024-01-16 03:59:59` keeps that due
date when `fSetDue` is called with 3. -/
theorem fSetDue_locked_witness :
    (fSetDue sampleEnv utc sampleNow sampleNow sampleNow
      { sampleProject [] with DueDate := "2024-01-16 03:59:59".toList }
      "project.toml".toList 3).panicked = true ∧
    (fSetDue sampleEnv utc sampleNow sampleNow sampleNow
      { sampleProject [] with DueDate := "2024-01-16 03:59:59".toList }
      "project.toml".toList 3).tomlData.DueDate = "2024-01-16 03:59:59".toList := by
  have h := fSetDue_locked sampleEnv utc sampleNow sampleNow sampleNow
    { sampleProject [] with DueDate := "2024-01-16 03:59:59".toList }
    "project.toml".toList 3 (by decide)
  exact ⟨h.1, h.2.2⟩

/-- C16, as the code has it.  On 2024-01-15 17:00:00 UTC, `fSetDue` with 0:
in the zone UTC the due date recorded is `2024-01-16 03:59:59`, not the end
of the day `2024-01-15 23:59:59`; in a zone four hours west of UTC the due
date recorded is `2024-01-15 23:59:59`, the end of the local day, but
`time.Parse` reads that string as 23:59:59 UTC, four hours before the instant
that was recorded. -/
theorem fSetDue_end_of_day_fails :
    (fSetDue sampleEnv utc sampleNow sampleNow sampleNow (sampleProject [])
      "project.toml".toList 0).tomlData.DueDate = "2024-01-16 03:59:59".toList ∧
    formatTime utc (endOfLocalDay utc sampleNow 0) = "2024-01-15 23:59:59".toList ∧
    (fSetDue sampleEnv (fixedZone (-14400)) sampleNow sampleNow sampleNow (sampleProject [])
      "project.toml".toList 0).tomlData.DueDate = "2024-01-15 23:59:59".toList ∧
    formatTime (fixedZone (-14400)) (endOfLocalDay (fixedZone (-14400)) sampleNow 0) =
      "2024-01-15 23:59:59".toList ∧
    endOfLocalDay (fixedZone (-14400)) sampleNow 0 = dateUTC 2024 1 16 3 59 59 ∧
    timeParse "2024-01-15 23:59:59".toList = some (dateUTC 2024 1 15 23 59 59) ∧
    dateUTC 2024 1 16 3 59 59 - dateUTC 2024 1 15 23 59 59 = 14400 * nsPerSec := by
  decide

/-! ## Lemmas: the tracked files -/

theorem swapRemove_cons_succ (a : GoString) (t : List GoString) (j : Nat) (hj : j < t.length) :
    swapRemove (a :: t) (j + 1) = a :: swapRemove t j := by
  cases t with
  | nil => simp at hj
  | cons b t =>
    unfold swapRemove
    have hlast : (a :: b :: t).getLastD [] = (b :: t).getLastD [] := by
      simp [List.getLastD]
    rw [hlast, List.set_cons_succ]
    have hne : (b :: t).set j ((b :: t).getLastD []) ≠ [] := by
      intro h
      have := congrArg List.length h
      simp at this
    obtain ⟨c, u, hcu⟩ := List.exists_cons_of_ne_nil hne
    rw [hcu]
    rfl

/-- Storing the last element at index `i` and dropping the last element
leaves the elements other than the one at index `i`. -/
theorem swapRemove_perm (files : List GoString) :
    ∀ i, i < files.length → (swapRemove files i).Perm (files.eraseIdx i) := by
  induction files with
  | nil => intro i hi; simp at hi
  | cons a t ih =>
    intro i hi
    cases i with
    | zero =>
      rcases List.eq_nil_or_concat t with rfl | ⟨init, last, rfl⟩
      · simp [swapRemove]
      · have h1 : swapRemove (a :: (init ++ [last])) 0 = last :: init := by
          simp [swapRemove, List.getLastD, List.dropLast]
        rw [List.concat_eq_append, h1]
        simpa using (List.perm_append_singleton last init).symm
    | succ j =>
      have hj : j < t.length := by simpa using hi
      rw [swapRemove_cons_succ a t j hj]
      simpa using (ih j hj)

theorem swapRemove_nodup (files : List GoString) (i : Nat) (h : files.Nodup) :
    (swapRemove files i).Nodup := by
  by_cases hi : i < files.length
  · exact (swapRemove_perm files i hi).nodup_iff.mpr (h.sublist (List.eraseIdx_sublist _ _))
  · unfold swapRemove
    rw [List.set_eq_of_length_le (by omega)]
    exact h.sublist (List.dropLast_sublist _)

theorem indexOfExact_some (files : List GoString) (x : GoString) (hx : x ∈ files) :
    ∃ i, indexOfExact files x = some i ∧ i < files.length ∧ files.eraseIdx i = files.erase x := by
  induction files with
  | nil => simp at hx
  | cons a t ih =>
    unfold indexOfExact
    by_cases ha : a = x
    · subst ha
      exact ⟨0, by simp, by simp, by simp⟩
    · have hxt : x ∈ t := by
        rcases List.mem_cons.mp hx with h | h
        · exact absurd h.symm ha
        · exact h
      obtain ⟨i, h1, h2, h3⟩ := ih hxt
      refine ⟨i + 1, by simp [ha, h1], by simpa using h2, ?_⟩
      rw [List.eraseIdx_cons_succ, h3, List.erase_cons_tail]
      simpa using ha

/-- The earlier `removeFile` does what is wanted: from a duplicate-free list
that tracks `fileName` it takes `fileName` and nothing else. -/
theorem removeFileExact_removes (env : SysEnv) (tomlData : projectConfig)
    (tomlFile fileName : GoString) (deleteFile : Bool)
    (hnd : tomlData.ProjFiles.Nodup) (hx : fileName ∈ tomlData.ProjFiles) :
    fileName ∉ (removeFileExact env tomlData tomlFile fileName deleteFile).tomlData.ProjFiles ∧
    (removeFileExact env tomlData tomlFile fileName deleteFile).tomlData.ProjFiles.Perm
      (tomlData.ProjFiles.erase fileName) ∧
    (removeFileExact env tomlData tomlFile fileName deleteFile).tomlData.ProjFiles.length + 1 =
      tomlData.ProjFiles.length := by
  obtain ⟨i, h1, h2, h3⟩ := indexOfExact_some tomlData.ProjFiles fileName hx
  have hfiles : (removeFileExact env tomlData tomlFile fileName deleteFile).tomlData.ProjFiles =
      swapRemove tomlData.ProjFiles i := by
    unfold removeFileExact removeFileWith
    rw [h1]
    simp only
    split_ifs <;> rfl
  rw [hfiles]
  have hperm : (swapRemove tomlData.ProjFiles i).Perm (tomlData.ProjFiles.erase fileName) := by
    rw [← h3]; exact swapRemove_perm _ i h2
  refine ⟨?_, hperm, ?_⟩
  · intro hmem
    exact (List.Nodup.not_mem_erase hnd) (hperm.mem_iff.mp hmem)
  · rw [hperm.length_eq, List.length_erase_of_mem hx]
    have : 0 < tomlData.ProjFiles.length := List.length_pos_of_mem hx
    omega

theorem addFileToProject_nodup (env : SysEnv) (tomlData : projectConfig)
    (tomlFile fileName : GoString) (hnd : tomlData.ProjFiles.Nodup)
    (hnew : fileName ∉ tomlData.ProjFiles) :
    (addFileToProject env tomlData tomlFile fileName).tomlData.ProjFiles.Nodup := by
  unfold addFileToProject
  simp only
  rw [List.nodup_append]
  exact ⟨hnd, by simp, by
    intro a ha hb
    have : a = fileName := by simpa using hb
    exact hnew (this ▸ ha)⟩

/-- The operations that look before they add, and both versions of
`removeFile`, keep a duplicate-free list duplicate-free. -/
theorem checked_operations_nodup (env : SysEnv) (tomlData : projectConfig)
    (tomlFile arg : GoString) (deleteFile : Bool) (hnd : tomlData.ProjFiles.Nodup) :
    (mainAddFile env tomlData tomlFile arg).tomlData.ProjFiles.Nodup ∧
    (createPlain env tomlData tomlFile arg).tomlData.ProjFiles.Nodup ∧
    (removeFile env tomlData tomlFile arg deleteFile).tomlData.ProjFiles.Nodup ∧
    (removeFileExact env tomlData tomlFile arg deleteFile).tomlData.ProjFiles.Nodup := by
  refine ⟨?_, ?_, ?_, ?_⟩
  · unfold mainAddFile
    split_ifs with h1 h2
    · exact hnd
    · exact addFileToProject_nodup env tomlData tomlFile arg hnd h2
    · exact hnd
  · unfold createPlain
    split_ifs with h1 h2 h3
    · exact hnd
    · exact hnd
    · exact hnd
    · exact addFileToProject_nodup env tomlData tomlFile arg hnd h1
  · unfold removeFile removeFileWith
    cases indexOf tomlData.ProjFiles arg with
    | none => exact hnd
    | some i =>
      simp only
      split_ifs <;> exact swapRemove_nodup _ i hnd
  · unfold removeFileExact removeFileWith
    cases indexOfExact tomlData.ProjFiles arg with
    | none => exact hnd
    | some i =>
      simp only
      split_ifs <;> exact swapRemove_nodup _ i hnd

/-! ## Theorems: the tracked files -/

/-- C15, as the code has it.  `createFile` with `template:py`, called twice on
a descriptor that tracks `project.toml`: the first call adds the copy
`/w/main.py` and the file `template:py`, and the list is still
duplicate-free; the second call adds `/w/main.py` again without looking, and
the list holds it twice. -/
theorem createFile_template_duplicates :
    (createFile sampleEnv sampleConf (sampleProject ["project.toml".toList])
      "project.toml".toList "template:py".toList).tomlData.ProjFiles =
      ["project.toml".toList, "/w/main.py".toList, "template:py".toList] ∧
    ["project.toml".toList, "/w/main.py".toList, "template:py".toList].Nodup ∧
    (createFile sampleEnv sampleConf
      (sampleProject ["project.toml".toList, "/w/main.py".toList, "template:py".toList])
      "project.toml".toList "template:py".toList).panicked = false ∧
    (createFile sampleEnv sampleConf
      (sampleProject ["project.toml".toList, "/w/main.py".toList, "template:py".toList])
      "project.toml".toList "template:py".toList).tomlData.ProjFiles =
      ["project.toml".toList, "/w/main.py".toList, "template:py".toList,
       "/w/main.py".toList] ∧
    ¬ (createFile sampleEnv sampleConf
      (sampleProject ["project.toml".toList, "/w/main.py".toList, "template:py".toList])
      "project.toml".toList "template:py".toList).tomlData.ProjFiles.Nodup := by
  decide

/-- C18, as the code has it.  `removeFile` of `ProjectPacker/main.go` on the
duplicate-free list `src/main.py`, `main.py` with the argument `main.py`:
`indexOf` stops at `src/main.py`, whose base name is `main.py`, so that path
is dropped and `main.py` stays.  The earlier `removeFile` drops `main.py`. -/
theorem removeFile_drops_other_path :
    ["src/main.py".toList, "main.py".toList].Nodup ∧
    "main.py".toList ∈ ["src/main.py".toList, "main.py".toList] ∧
    indexOf ["src/main.py".toList, "main.py".toList] "main.py".toList = some 0 ∧
    (removeFile sampleEnv (sampleProject ["src/main.py".toList, "main.py".toList])
      "project.toml".toList "main.py".toList false).panicked = false ∧
    (removeFile sampleEnv (sampleProject ["src/main.py".toList, "main.py".toList])
      "project.toml".toList "main.py".toList false).tomlData.ProjFiles = ["main.py".toList] ∧
    (removeFileExact sampleEnv (sampleProject ["src/main.py".toList, "main.py".toList])
      "project.toml".toList "main.py".toList false).tomlData.ProjFiles =
      ["src/main.py".toList] := by
  decide

end ProjectPacker
